import Mathlib

/-!
Verification of the modular-arithmetic core of a lattice-based FHE toolkit.

Shallow embedding, over `Nat`, of the 32-bit instantiation of the macro-generated
modulus/reduction machinery (`src/algebra/src/modulus/internal_macros.rs`,
`src/algebra/src/modulus/powof2/internal_macros.rs`) and of the prime field
`Fp32` with its NTT-table generation and cache (`src/algebra/src/field/fp32.rs`).

Machine integers are embedded as `Nat` with explicit `% 2^32` / `% 2^64`
wherever the Rust code wraps (`wrapping_add`, `wrapping_sub`, `wrapping_mul`,
integer casts, shifts that may discard bits).  Fallible operations return
`Option`.  Panics (`unreachable!`, failed asserts) are modelled as `none`.
-/

namespace Primus

/-- `2^32`, the number of values of the 32-bit word type. -/
def B32 : Nat := 2 ^ 32

/-- `2^64`, the number of values of the wide (64-bit) type. -/
def B64 : Nat := 2 ^ 64

/-- `u32::wrapping_mul`. -/
def wmul32 (a b : Nat) : Nat := (a * b) % B32

/-- `u32::wrapping_sub` (operands already reduced `< 2^32`). -/
def wsub32 (a b : Nat) : Nat := (a + B32 - b % B32) % B32

/-- Bit length of a value, with explicit fuel (structural recursion so the
kernel can evaluate it).  `bitLenAux 32 x` is `u32::BITS - x.leading_zeros()`. -/
def bitLenAux : Nat → Nat → Nat
  | 0, _ => 0
  | fuel + 1, x => if x = 0 then 0 else bitLenAux fuel (x / 2) + 1

/-- `u32::BITS - x.leading_zeros()`, the bit count of a `u32` value. -/
def bitLen32 (x : Nat) : Nat := bitLenAux 32 x

/-! ## The Barrett modulus (`Modulus<u32>`) -/

/-- `Modulus<u32>`: value, the two ratio limbs `⌊2^64/value⌋` (low, high),
and the bit count of the value. -/
structure Modulus where
  value : Nat
  ratio0 : Nat
  ratio1 : Nat
  bit_count : Nat
deriving DecidableEq

/-- `div_rem` helper of `Modulus::new`. -/
def divRem (numerator divisor : Nat) : Nat × Nat :=
  (numerator / divisor, numerator % divisor)

/-- `div_wide` helper of `Modulus::new`: divides the two-limb value
`lo | (hi << 32)` by `divisor`; both results are cast back to `u32`. -/
def divWide (hi lo divisor : Nat) : Nat × Nat :=
  let lhs := lo ||| (hi <<< 32)
  ((lhs / divisor) % B32, (lhs % divisor) % B32)

/-- Half-word bit count used by `Modulus::new` (`u32::BITS >> 1`). -/
def HALF_BITS : Nat := 16

/-- Half-word mask used by `Modulus::new` (`(1 << HALF_BITS) - 1`). -/
def HALF : Nat := (1 <<< HALF_BITS) - 1

/-- `div_half` helper of `Modulus::new` (schoolbook division by a divisor
that fits a half word); `u32` shifts discard the high bits, hence `% B32`. -/
def divHalf (rem digit divisor : Nat) : Nat × Nat :=
  let p1 := divRem ((rem <<< HALF_BITS) % B32 ||| (digit >>> HALF_BITS)) divisor
  let p2 := divRem ((p1.2 <<< HALF_BITS) % B32 ||| (digit &&& HALF)) divisor
  ((p1.1 <<< HALF_BITS) % B32 ||| p2.1, p2.2)

/-- `div_inplace` of `Modulus::new`: long division of the three-limb value
`[0, 0, 1]` (that is, `2^64`) by `value`; returns the quotient limbs
`(numerator[0], numerator[1], numerator[2])` and the remainder. -/
def divInplace (value : Nat) : (Nat × Nat × Nat) × Nat :=
  if value ≤ HALF then
    let s2 := divHalf 0 1 value
    let s1 := divHalf s2.2 0 value
    let s0 := divHalf s1.2 0 value
    ((s0.1, s1.1, s2.1), s0.2)
  else
    let s2 := divWide 0 1 value
    let s1 := divWide s2.2 0 value
    let s0 := divWide s1.2 0 value
    ((s0.1, s1.1, s2.1), s0.2)

/-- The body of `Modulus::new` after its validity checks: `ratio` is the low
two quotient limbs of `2^64 / value`. -/
def Modulus.make (value : Nat) : Modulus :=
  let nr := divInplace value
  ⟨value, nr.1.1, nr.1.2.1, bitLen32 value⟩

/-- `Modulus::new` with its panics modelled as `none`: panic on
`value ∈ {0, 1}` and on `bit_count ≥ u32::BITS - 1`. -/
def Modulus.new? (value : Nat) : Option Modulus :=
  if value = 0 ∨ value = 1 then none
  else if bitLen32 value < 31 then some (Modulus.make value) else none

/-- `Modulo::reduce` for a single word (`impl Modulo<&Modulus<u32>> for u32`):
three-step Barrett reduction. -/
def reduce1 (x : Nat) (m : Modulus) : Nat :=
  -- Step 1.
  let tmp1 := (x * m.ratio0) >>> 32
  let q3 := ((x * m.ratio1 + tmp1) % B64) >>> 32 % B32
  -- Step 2.
  let tmp := wsub32 x (wmul32 q3 m.value)
  -- Steps 3 and 4.
  if m.value ≤ tmp then tmp - m.value else tmp

/-- `Modulo::reduce` for a two-limb value (`impl Modulo<&Modulus<u32>> for
[u32; 2]`): Barrett reduction of `x0 + x1·2^32`. -/
def reduce2 (x0 x1 : Nat) (m : Modulus) : Nat :=
  let a := m.ratio0 * x0
  let bPlusALeft := (m.ratio1 * x0 + (a >>> 32)) % B64
  let c := m.ratio0 * x1
  let d := m.ratio1 * x1
  let tmp := (d + ((bPlusALeft + c) % B64) >>> 32) % B64 % B32
  let r := wsub32 x0 (wmul32 tmp m.value)
  if m.value ≤ r then r - m.value else r

/-- `other.iter().rfold(*last, |acc, x| [*x, acc].reduce(modulus))` of the
slice form of `reduce`. -/
def rfoldReduce (m : Modulus) : List Nat → Nat → Nat
  | [], acc => acc
  | x :: xs, acc => reduce2 x (rfoldReduce m xs acc) m

/-- `Modulo::reduce` for a slice (`impl Modulo<&Modulus<u32>> for &[u32]`);
the `unreachable!` on the empty slice is modelled as `none`. -/
def reduceSlice (m : Modulus) : List Nat → Option Nat
  | [] => none
  | [v] => some (if v < m.value then v else reduce1 v m)
  | x :: y :: rest =>
    some (rfoldReduce m ((x :: y :: rest).dropLast) ((x :: y :: rest).getLastD 0))

/-! ## Arithmetic facts about the embedding -/

theorem lt_of_bitLenAux_le : ∀ (fuel k x : Nat), k < fuel →
    bitLenAux fuel x ≤ k → x < 2 ^ k := by
  intro fuel
  induction fuel with
  | zero => intro k x hk; omega
  | succ fuel ih =>
    intro k x hk h
    by_cases hx : x = 0
    · subst hx; exact Nat.two_pow_pos k
    · rw [show bitLenAux (fuel + 1) x = bitLenAux fuel (x / 2) + 1 by
        simp [bitLenAux, hx]] at h
      cases k with
      | zero => omega
      | succ k' =>
        have hx2 := ih k' (x / 2) (by omega) (by omega)
        rw [Nat.div_lt_iff_lt_mul (by norm_num)] at hx2
        calc x < 2 ^ k' * 2 := hx2
          _ = 2 ^ (k' + 1) := (pow_succ 2 k').symm

theorem bitLenAux_le_of_lt : ∀ (fuel k x : Nat), k ≤ fuel → x < 2 ^ k →
    bitLenAux fuel x ≤ k := by
  intro fuel
  induction fuel with
  | zero => intro k x hk hx; interval_cases k; simp [bitLenAux]
  | succ fuel ih =>
    intro k x hk hx
    by_cases hx0 : x = 0
    · subst hx0; cases fuel <;> simp [bitLenAux]
    · rw [show bitLenAux (fuel + 1) x = bitLenAux fuel (x / 2) + 1 by
        simp [bitLenAux, hx0]]
      cases k with
      | zero => simp at hx; omega
      | succ k' =>
        have : x / 2 < 2 ^ k' := by
          rw [Nat.div_lt_iff_lt_mul (by norm_num)]
          calc x < 2 ^ (k' + 1) := hx
            _ = 2 ^ k' * 2 := pow_succ 2 k'
        exact Nat.succ_le_succ (ih k' (x / 2) (by omega) this)

/-- Splitting one limb off a division: the schoolbook long-division step. -/
theorem div_step (A v k : Nat) (hv : 0 < v) :
    A * 2 ^ k / v = A / v * 2 ^ k + A % v * 2 ^ k / v := by
  conv_lhs => rw [← Nat.div_add_mod A v]
  rw [Nat.add_mul, Nat.mul_assoc, Nat.mul_add_div hv]

theorem div_step_mod (A v k : Nat) :
    A * 2 ^ k % v = A % v * 2 ^ k % v := by
  rw [Nat.mod_mul_mod]

theorem divWide_spec (hi lo v : Nat) (hhi : hi < v) (hlo : lo < B32)
    (hv : v < B32) :
    divWide hi lo v = ((hi * B32 + lo) / v, (hi * B32 + lo) % v) := by
  have hB : (0:Nat) < B32 := by norm_num [B32]
  have hv0 : 0 < v := by omega
  have hor : lo ||| hi <<< 32 = hi * B32 + lo := by
    have h := Nat.mul_add_lt_is_or (show lo < 2 ^ 32 from hlo) hi
    rw [Nat.shiftLeft_eq, Nat.lor_comm, Nat.mul_comm hi, ← h, B32]
    ring
  have hq : (hi * B32 + lo) / v < B32 := by
    rw [Nat.div_lt_iff_lt_mul hv0]
    calc hi * B32 + lo < hi * B32 + B32 := by omega
      _ = (hi + 1) * B32 := by ring
      _ ≤ v * B32 := Nat.mul_le_mul_right _ (by omega)
      _ = B32 * v := Nat.mul_comm _ _
  have hr : (hi * B32 + lo) % v < B32 := lt_trans (Nat.mod_lt _ hv0) hv
  simp only [divWide, hor]
  rw [Nat.mod_eq_of_lt hq, Nat.mod_eq_of_lt hr]

theorem HALF_eq : HALF = 2 ^ 16 - 1 := by decide

theorem divHalf_spec (rem digit v : Nat) (hrem : rem < v) (hv2 : 2 ≤ v)
    (hv : v ≤ 2 ^ 16 - 1) (hd : digit < B32) :
    divHalf rem digit v =
      ((rem * B32 + digit) / v, (rem * B32 + digit) % v) := by
  have hv0 : 0 < v := by omega
  have hrem16 : rem < 2 ^ 16 := by omega
  have e1 : (rem <<< HALF_BITS) % B32 = rem * 2 ^ 16 := by
    rw [Nat.shiftLeft_eq]
    show rem * 2 ^ 16 % B32 = rem * 2 ^ 16
    apply Nat.mod_eq_of_lt
    calc rem * 2 ^ 16 < 2 ^ 16 * 2 ^ 16 := by
          exact (Nat.mul_lt_mul_right (by norm_num)).mpr hrem16
      _ ≤ B32 := by norm_num [B32]
  have e2 : digit >>> HALF_BITS = digit / 2 ^ 16 := Nat.shiftRight_eq_div_pow _ _
  have e3 : digit &&& HALF = digit % 2 ^ 16 := by
    rw [HALF_eq]; exact Nat.and_pow_two_sub_one_eq_mod digit 16
  have hdhi : digit / 2 ^ 16 < 2 ^ 16 := by
    rw [Nat.div_lt_iff_lt_mul (by norm_num)]
    calc digit < B32 := hd
      _ = 2 ^ 16 * 2 ^ 16 := by norm_num [B32]
  have hor1 : rem * 2 ^ 16 ||| digit / 2 ^ 16 = rem * 2 ^ 16 + digit / 2 ^ 16 := by
    rw [Nat.mul_comm rem, ← Nat.mul_add_lt_is_or hdhi rem]
  -- the first `div_rem`
  set dhi := digit / 2 ^ 16 with hdhi_def
  set dlo := digit % 2 ^ 16 with hdlo_def
  have hdigit : dhi * 2 ^ 16 + dlo = digit := by
    rw [hdhi_def, hdlo_def, Nat.mul_comm]; exact Nat.div_add_mod _ _
  set A := rem * 2 ^ 16 + dhi with hA_def
  have hA_lt : A < v * 2 ^ 16 := by
    calc A < rem * 2 ^ 16 + 2 ^ 16 := by omega
      _ = (rem + 1) * 2 ^ 16 := by ring
      _ ≤ v * 2 ^ 16 := Nat.mul_le_mul_right _ (by omega)
  have hAq : A / v < 2 ^ 16 := by rw [Nat.div_lt_iff_lt_mul hv0]; omega
  have e4 : ((A % v) <<< HALF_BITS) % B32 = A % v * 2 ^ 16 := by
    rw [Nat.shiftLeft_eq]
    show A % v * 2 ^ 16 % B32 = A % v * 2 ^ 16
    apply Nat.mod_eq_of_lt
    calc A % v * 2 ^ 16 < 2 ^ 16 * 2 ^ 16 := by
          exact (Nat.mul_lt_mul_right (by norm_num)).mpr (by have := Nat.mod_lt A hv0; omega)
      _ ≤ B32 := by norm_num [B32]
  have hor2 : A % v * 2 ^ 16 ||| dlo = A % v * 2 ^ 16 + dlo := by
    rw [Nat.mul_comm (A % v), ← Nat.mul_add_lt_is_or (by omega : dlo < 2 ^ 16)]
  have hlo_q : (A % v * 2 ^ 16 + dlo) / v < 2 ^ 16 := by
    rw [Nat.div_lt_iff_lt_mul hv0]
    calc A % v * 2 ^ 16 + dlo < (A % v) * 2 ^ 16 + 2 ^ 16 := by omega
      _ = (A % v + 1) * 2 ^ 16 := by ring
      _ ≤ v * 2 ^ 16 := Nat.mul_le_mul_right _ (by have := Nat.mod_lt A hv0; omega)
      _ = 2 ^ 16 * v := Nat.mul_comm _ _
  have e5 : ((A / v) <<< HALF_BITS) % B32 = A / v * 2 ^ 16 := by
    rw [Nat.shiftLeft_eq]
    show A / v * 2 ^ 16 % B32 = A / v * 2 ^ 16
    apply Nat.mod_eq_of_lt
    calc A / v * 2 ^ 16 < 2 ^ 16 * 2 ^ 16 := (Nat.mul_lt_mul_right (by norm_num)).mpr hAq
      _ ≤ B32 := by norm_num [B32]
  have hor3 : A / v * 2 ^ 16 ||| (A % v * 2 ^ 16 + dlo) / v =
      A / v * 2 ^ 16 + (A % v * 2 ^ 16 + dlo) / v := by
    rw [Nat.mul_comm (A / v), ← Nat.mul_add_lt_is_or hlo_q]
  -- big-number identity
  have key : rem * B32 + digit = v * (A / v * 2 ^ 16) + (A % v * 2 ^ 16 + dlo) := by
    have : rem * B32 + digit = A * 2 ^ 16 + dlo := by
      rw [hA_def, ← hdigit]; ring_nf; rw [B32]; ring
    rw [this]
    conv_lhs => rw [← Nat.div_add_mod A v]
    ring
  have hq_eq : (rem * B32 + digit) / v = A / v * 2 ^ 16 + (A % v * 2 ^ 16 + dlo) / v := by
    rw [key, Nat.mul_add_div hv0]
  have hr_eq : (rem * B32 + digit) % v = (A % v * 2 ^ 16 + dlo) % v := by
    rw [key, Nat.mul_add_mod]
  simp only [divHalf, divRem, e1, e2, e3]
  rw [hor1, e4, hor2, e5, hor3, hq_eq, hr_eq]

theorem B64_eq_B32_mul : B64 = B32 * B32 := by norm_num [B32, B64]

/-- The ratio limbs computed by `div_inplace` are the two low limbs of
`⌊2^64 / v⌋` (the top limb is zero for `v ≥ 2`). -/
theorem divInplace_spec (v : Nat) (hv2 : 2 ≤ v) (hv32 : v < B32) :
    (divInplace v).1.1 + B32 * (divInplace v).1.2.1 = B64 / v ∧
      (divInplace v).1.1 < B32 ∧ (divInplace v).1.2.1 < B32 := by
  have hv0 : 0 < v := by omega
  have hB32 : (B32 : Nat) = 2 ^ 32 := rfl
  have key : B32 / v * B32 + B32 % v * B32 / v = B64 / v := by
    have h := div_step B32 v 32 hv0
    rw [← hB32] at h
    rw [← h, ← B64_eq_B32_mul]
  have hq1_lt : B32 / v < B32 := Nat.div_lt_self (by norm_num [B32]) (by omega)
  have hq0_lt : B32 % v * B32 / v < B32 := by
    rw [Nat.div_lt_iff_lt_mul hv0]
    calc B32 % v * B32 < v * B32 := by
          exact (Nat.mul_lt_mul_right (by norm_num [B32])).mpr (Nat.mod_lt _ hv0)
      _ = B32 * v := Nat.mul_comm _ _
  by_cases hhalf : v ≤ HALF
  · -- half-word branch
    have hv16 : v ≤ 2 ^ 16 - 1 := by
      have : HALF = 2 ^ 16 - 1 := HALF_eq
      omega
    have h1 : divHalf 0 1 v = (0, 1) := by
      rw [divHalf_spec 0 1 v (by omega) hv2 hv16 (by norm_num [B32])]
      simp
      constructor
      · exact Nat.div_eq_of_lt (by omega)
      · exact Nat.mod_eq_of_lt (by omega)
    have h2 : divHalf 1 0 v = (B32 / v, B32 % v) := by
      rw [divHalf_spec 1 0 v (by omega) hv2 hv16 (by norm_num [B32])]
      simp
    have h3 : divHalf (B32 % v) 0 v = (B32 % v * B32 / v, B32 % v * B32 % v) := by
      rw [divHalf_spec (B32 % v) 0 v (Nat.mod_lt _ hv0) hv2 hv16 (by norm_num [B32])]
      simp
    simp only [divInplace, if_pos hhalf, h1]
    rw [h2, h3]
    refine ⟨?_, hq0_lt, hq1_lt⟩
    rw [Nat.add_comm, Nat.mul_comm B32 (B32 / v)]
    exact key
  · -- wide branch
    have h1 : divWide 0 1 v = (0, 1) := by
      rw [divWide_spec 0 1 v (by omega) (by norm_num [B32]) hv32]
      simp
      constructor
      · exact Nat.div_eq_of_lt (by omega)
      · exact Nat.mod_eq_of_lt (by omega)
    have h2 : divWide 1 0 v = (B32 / v, B32 % v) := by
      rw [divWide_spec 1 0 v (by omega) (by norm_num [B32]) hv32]
      simp
    have h3 : divWide (B32 % v) 0 v = (B32 % v * B32 / v, B32 % v * B32 % v) := by
      rw [divWide_spec (B32 % v) 0 v (Nat.mod_lt _ hv0) (by norm_num [B32]) hv32]
      simp
    simp only [divInplace, if_neg hhalf, h1]
    rw [h2, h3]
    refine ⟨?_, hq0_lt, hq1_lt⟩
    rw [Nat.add_comm, Nat.mul_comm B32 (B32 / v)]
    exact key

/-- Upper Barrett bound: the estimated quotient never exceeds the true one. -/
theorem barrett_le (m x : Nat) (hm : 0 < m) :
    x * (B64 / m) / B64 * m ≤ x := by
  have hB : (0:Nat) < B64 := by norm_num [B64]
  have h1 : x * (B64 / m) ≤ x * B64 / m := by
    rw [Nat.le_div_iff_mul_le hm]
    rw [Nat.mul_assoc]
    exact Nat.mul_le_mul_left x (Nat.div_mul_le_self _ _)
  have h2 : x * (B64 / m) / B64 ≤ x * B64 / m / B64 :=
    Nat.div_le_div_right h1
  have h3 : x * B64 / m / B64 = x / m := by
    rw [Nat.div_div_eq_div_mul, Nat.mul_comm m B64, ← Nat.div_div_eq_div_mul,
      Nat.mul_div_cancel x hB]
  calc x * (B64 / m) / B64 * m ≤ x / m * m := by
        apply Nat.mul_le_mul_right
        omega
    _ ≤ x := Nat.div_mul_le_self _ _

/-- Lower Barrett bound: the estimated quotient is off by at most one,
so the candidate remainder is below `2·m`. -/
theorem barrett_lb (m x : Nat) (hm : 0 < m) (hx : x < B64) :
    x < x * (B64 / m) / B64 * m + 2 * m := by
  have hB : (0:Nat) < B64 := by norm_num [B64]
  set R := B64 / m with hR
  set q3 := x * R / B64 with hq3
  have hd1 : m * R + B64 % m = B64 := Nat.div_add_mod B64 m
  have hd2 : B64 * q3 + x * R % B64 = x * R := Nat.div_add_mod (x * R) B64
  have hrm : B64 % m < m := Nat.mod_lt _ hm
  have hrq : x * R % B64 < B64 := Nat.mod_lt _ hB
  -- x * B64 = m * B64 * q3 + m * (x*R % B64) + x * (B64 % m)
  have main : x * B64 = m * B64 * q3 + m * (x * R % B64) + x * (B64 % m) := by
    have e1 : x * B64 = x * (m * R) + x * (B64 % m) := by
      rw [← Nat.mul_add, hd1]
    have e2 : x * (m * R) = m * (x * R) := by ring
    have e3 : m * (x * R) = m * (B64 * q3) + m * (x * R % B64) := by
      rw [← Nat.mul_add, hd2]
    rw [e1, e2, e3]; ring
  have hstep : x * B64 < (q3 * m + 2 * m) * B64 := by
    calc x * B64 = m * B64 * q3 + m * (x * R % B64) + x * (B64 % m) := main
      _ < m * B64 * q3 + m * B64 + x * m := by
          have a1 : m * (x * R % B64) < m * B64 := by
            exact (Nat.mul_lt_mul_left hm).mpr hrq
          have a2 : x * (B64 % m) ≤ x * m := by
            exact Nat.mul_le_mul_left x (by omega)
          omega
      _ ≤ m * B64 * q3 + m * B64 + B64 * m := by
          have : x * m ≤ B64 * m := Nat.mul_le_mul_right m (by omega)
          omega
      _ = (q3 * m + 2 * m) * B64 := by ring
  have := Nat.lt_of_mul_lt_mul_right hstep
  exact this

/-- Rearranging the two-word accumulation of step 1 into a single division. -/
theorem q3_split (x r0 r1 : Nat) :
    (x * r1 + x * r0 / B32) / B32 = x * (r0 + B32 * r1) / B64 := by
  have h1 : x * (r0 + B32 * r1) = x * r0 + x * r1 * B32 := by ring
  rw [h1, B64_eq_B32_mul, ← Nat.div_div_eq_div_mul,
    Nat.add_mul_div_right _ _ (show 0 < B32 by norm_num [B32]), Nat.add_comm]

/-- The last two steps of Barrett reduction: wrapping subtraction of
`q3·m` from the low limb `xc ≡ x (mod 2^32)`, followed by one conditional
correction. -/
theorem final_steps (x xc m q3 q3c : Nat) (hxc : xc % B32 = x % B32)
    (hc : q3c % B32 = q3 % B32)
    (h1 : q3 * m ≤ x) (h2 : x < q3 * m + 2 * m) (hm : 2 * m ≤ B32)
    (hm0 : 0 < m) :
    (if m ≤ wsub32 xc (wmul32 q3c m) then wsub32 xc (wmul32 q3c m) - m
      else wsub32 xc (wmul32 q3c m)) = x % m := by
  have hsub : wsub32 xc (wmul32 q3c m) = x - q3 * m := by
    have e1 : wmul32 q3c m = q3 * m % B32 := by
      rw [wmul32, ← Nat.mod_mul_mod, hc, Nat.mod_mul_mod]
    rw [wsub32, e1]
    simp only [B32] at *
    omega
  rw [hsub]
  have hxm : x % m = (x - q3 * m) % m := by
    conv_lhs => rw [← Nat.sub_add_cancel h1]
    rw [Nat.add_mul_mod_self_right]
  by_cases hlt : x - q3 * m < m
  · rw [if_neg (by omega), hxm, Nat.mod_eq_of_lt hlt]
  · rw [if_pos (by omega), hxm, Nat.mod_eq_sub_mod (by omega),
      Nat.mod_eq_of_lt (by omega)]

/-- Correctness of the single-word Barrett reduction, in terms of the
validated ratio limbs. -/
theorem reduce1_eq (m : Modulus) (hval : 2 ≤ m.value) (hv30 : m.value < 2 ^ 30)
    (hr : m.ratio0 + B32 * m.ratio1 = B64 / m.value)
    (hr0 : m.ratio0 < B32) (hr1 : m.ratio1 < B32) (x : Nat) (hx : x < B32) :
    reduce1 x m = x % m.value := by
  have hBpos : (0:Nat) < B32 := by norm_num [B32]
  have hm0 : 0 < m.value := by omega
  have htmp1 : (x * m.ratio0) >>> 32 = x * m.ratio0 / B32 := by
    rw [Nat.shiftRight_eq_div_pow]
    norm_num [B32]
  have a2 : x * m.ratio0 / B32 < B32 := by
    rw [Nat.div_lt_iff_lt_mul hBpos]
    exact lt_of_le_of_lt (Nat.mul_le_mul_left x hr0.le)
      ((Nat.mul_lt_mul_right hBpos).mpr hx)
  have a1 : x * m.ratio1 ≤ (B32 - 1) * (B32 - 1) :=
    Nat.mul_le_mul (by omega) (by omega)
  have hnoflow : x * m.ratio1 + x * m.ratio0 / B32 < B64 := by
    have e : (B32 - 1) * (B32 - 1) + B32 ≤ B64 := by norm_num [B32, B64]
    omega
  have hq3lt : x * (B64 / m.value) / B64 < B32 := by
    have h1 : x * (B64 / m.value) ≤ x * B64 :=
      Nat.mul_le_mul_left x (Nat.div_le_self _ _)
    have h2 : x * B64 / B64 = x := Nat.mul_div_cancel x (by norm_num [B64])
    calc x * (B64 / m.value) / B64 ≤ x * B64 / B64 := Nat.div_le_div_right h1
      _ = x := h2
      _ < B32 := hx
  have hq3 : (((x * m.ratio1 + (x * m.ratio0) >>> 32) % B64) >>> 32) % B32
      = x * (B64 / m.value) / B64 := by
    rw [htmp1, Nat.mod_eq_of_lt hnoflow, Nat.shiftRight_eq_div_pow]
    have h2 : (x * m.ratio1 + x * m.ratio0 / B32) / 2 ^ 32
        = x * (B64 / m.value) / B64 := by
      have h3 := q3_split x m.ratio0 m.ratio1
      rw [hr] at h3
      rw [← h3]
      norm_num [B32]
    rw [h2, Nat.mod_eq_of_lt hq3lt]
  have hle := barrett_le m.value x hm0
  have hlb := barrett_lb m.value x hm0 (by
    have h : B32 ≤ B64 := by norm_num [B32, B64]
    omega)
  simp only [reduce1]
  rw [hq3]
  exact final_steps x x m.value _ _ rfl rfl hle hlb
    (by have h : 2 ^ 30 * 2 ≤ B32 := by norm_num [B32]
        omega) hm0

/-- Facts extracted from a successful `Modulus::new`. -/
theorem new?_spec (v : Nat) (m : Modulus) (h : Modulus.new? v = some m) :
    m.value = v ∧ 2 ≤ v ∧ v < 2 ^ 30 ∧
      m.ratio0 + B32 * m.ratio1 = B64 / v ∧
      m.ratio0 < B32 ∧ m.ratio1 < B32 := by
  unfold Modulus.new? at h
  split at h
  · exact absurd h (by simp)
  · split at h
    · next hne hbc =>
      have hv2 : 2 ≤ v := by omega
      have hv30 : v < 2 ^ 30 := lt_of_bitLenAux_le 32 30 v (by omega) (by
        simpa [bitLen32] using Nat.le_of_lt_succ hbc)
      have hv32 : v < B32 := by simp only [B32]; omega
      obtain ⟨hsum, h0, h1⟩ := divInplace_spec v hv2 hv32
      have hmake : m = Modulus.make v := by
        injection h with h'; exact h'.symm
      subst hmake
      exact ⟨rfl, hv2, hv30, hsum, h0, h1⟩
    · exact absurd h (by simp)

/-- **C1.** For every `Modulus` built by `Modulus::new` from a valid value and
every single word `x`, `x.reduce(&modulus)` is exactly `x mod value`, and the
result lies in `[0, value)`. -/
theorem claim1_single_word_reduce (v : Nat) (m : Modulus)
    (hm : Modulus.new? v = some m) (x : Nat) (hx : x < 2 ^ 32) :
    reduce1 x m = x % m.value ∧ x % m.value < m.value := by
  obtain ⟨hv, hv2, hv30, hr, hr0, hr1⟩ := new?_spec v m hm
  subst hv
  have hx' : x < B32 := by simpa [B32] using hx
  refine ⟨reduce1_eq m hv2 hv30 hr hr0 hr1 x hx', Nat.mod_lt _ (by omega)⟩

/-- Witness for C1: the modulus `97` is valid and `1234567` reduces to
`1234567 % 97`. -/
theorem claim1_witness :
    Modulus.new? 97 = some (Modulus.make 97) ∧
      reduce1 1234567 (Modulus.make 97) = 1234567 % 97 := by
  refine ⟨by decide, ?_⟩
  exact (claim1_single_word_reduce 97 (Modulus.make 97) (by decide) 1234567
    (by norm_num)).1

/-- Shifting right by the word size is division by `2^32`. -/
theorem shiftRight32_eq_div (a : Nat) : a >>> 32 = a / B32 := by
  rw [Nat.shiftRight_eq_div_pow]
  congr 1

/-- Core inequality behind the no-overflow bound on the ratio limbs:
with `t + 1` standing for `2^32`, `q = (t+1)/v` and `s = (t+1) % v > 0`. -/
theorem barrett_carry_bound (v q s t : Nat) (h2 : 1 ≤ s) (h3 : s < v)
    (hsv : v * q + s = t + 1) :
    (t + 1) * (t + 1) < ((q + 1) * t + 1) * v := by
  zify at *
  nlinarith [mul_le_mul_of_nonneg_left
      (show (1:ℤ) ≤ (v:ℤ) - (s:ℤ) by linarith)
      (show (0:ℤ) ≤ (v:ℤ) * (q:ℤ) + (s:ℤ) by positivity)]

/-- The two ratio limbs never sum to a full word: this is what keeps the
64-bit accumulation of the two-limb reduction from overflowing. -/
theorem ratio_limb_sum (v : Nat) (hv : 2 ≤ v) :
    B64 / v % B32 + B64 / v / B32 < B32 := by
  have hB : (0:Nat) < B32 := by norm_num [B32]
  have hv0 : 0 < v := by omega
  have hq_eq : B64 / v / B32 = B32 / v := by
    rw [Nat.div_div_eq_div_mul, B64_eq_B32_mul, Nat.mul_comm v B32,
      Nat.mul_div_mul_left _ _ hB]
  have hdm : B32 * (B64 / v / B32) + B64 / v % B32 = B64 / v :=
    Nat.div_add_mod _ _
  rw [hq_eq] at hdm ⊢
  have hsv : v * (B32 / v) + B32 % v = B32 := Nat.div_add_mod B32 v
  by_cases hs : B32 % v = 0
  · have hvq : v * (B32 / v) = B32 := by omega
    have hR : B64 / v = B32 / v * B32 := by
      have e : B64 = v * (B32 / v * B32) := by
        rw [B64_eq_B32_mul]
        nth_rewrite 1 [← hvq]
        ring
      rw [e, Nat.mul_div_cancel_left _ hv0]
    have hq_lt : B32 / v < B32 := Nat.div_lt_self hB (by omega)
    rw [hR, Nat.mul_mod_left]
    omega
  · have hslt : B32 % v < v := Nat.mod_lt _ hv0
    have hRle : B64 / v ≤ (B32 / v + 1) * (B32 - 1) := by
      rw [← Nat.lt_succ_iff, Nat.div_lt_iff_lt_mul hv0]
      have hkey := barrett_carry_bound v (B32 / v) (B32 % v) (B32 - 1)
        (by omega) hslt (by omega)
      have e : B32 - 1 + 1 = B32 := by omega
      rw [e, ← B64_eq_B32_mul] at hkey
      exact hkey
    simp only [B32, B64] at hdm hRle ⊢
    omega

/-- Rearranging the wide accumulation of the two-limb reduction. -/
theorem q3_split2 (x0 x1 r0 r1 : Nat) :
    (x0 + x1 * B32) * (r0 + B32 * r1) / B64
      = x1 * r1 + (r1 * x0 + r0 * x0 / B32 + r0 * x1) / B32 := by
  have hB : (0:Nat) < B32 := by norm_num [B32]
  have e1 : (x0 + x1 * B32) * (r0 + B32 * r1)
      = B32 * (x0 * r1 + x1 * r0 + x1 * r1 * B32) + x0 * r0 := by ring
  rw [e1, B64_eq_B32_mul, ← Nat.div_div_eq_div_mul, Nat.mul_add_div hB]
  rw [show x0 * r1 + x1 * r0 + x1 * r1 * B32 + x0 * r0 / B32
      = (x0 * r1 + x1 * r0 + x0 * r0 / B32) + x1 * r1 * B32 by ring]
  rw [Nat.add_mul_div_right _ _ hB]
  rw [show r1 * x0 + r0 * x0 / B32 + r0 * x1
      = x0 * r1 + x1 * r0 + x0 * r0 / B32 by ring_nf]
  ring

/-- Correctness of the two-limb Barrett reduction for arbitrary limbs. -/
theorem reduce2_eq (m : Modulus) (hval : 2 ≤ m.value) (hv30 : m.value < 2 ^ 30)
    (hr : m.ratio0 + B32 * m.ratio1 = B64 / m.value)
    (hr0 : m.ratio0 < B32) (hr1 : m.ratio1 < B32)
    (x0 x1 : Nat) (h0 : x0 < B32) (h1 : x1 < B32) :
    reduce2 x0 x1 m = (x0 + x1 * B32) % m.value := by
  have hBpos : (0:Nat) < B32 := by norm_num [B32]
  have hm0 : 0 < m.value := by omega
  have hsum : m.ratio0 + m.ratio1 < B32 := by
    have hls := ratio_limb_sum m.value hval
    have e0 : B64 / m.value % B32 = m.ratio0 := by
      rw [← hr, Nat.add_mul_mod_self_left, Nat.mod_eq_of_lt hr0]
    have e1 : B64 / m.value / B32 = m.ratio1 := by
      rw [← hr, Nat.add_mul_div_left _ _ hBpos, Nat.div_eq_of_lt hr0,
        Nat.zero_add]
    rw [e0, e1] at hls
    exact hls
  have hxlt : x0 + x1 * B32 < B64 := by
    have h2 : x1 * B32 ≤ (B32 - 1) * B32 :=
      Nat.mul_le_mul_right B32 (by omega)
    have e : (B32 - 1) + (B32 - 1) * B32 < B64 := by norm_num [B32, B64]
    omega
  have ha : (m.ratio0 * x0) >>> 32 = m.ratio0 * x0 / B32 :=
    shiftRight32_eq_div _
  have hdivle : m.ratio0 * x0 / B32 ≤ m.ratio0 := by
    have h2 : m.ratio0 * x0 ≤ m.ratio0 * B32 := Nat.mul_le_mul_left _ h0.le
    calc m.ratio0 * x0 / B32 ≤ m.ratio0 * B32 / B32 := Nat.div_le_div_right h2
      _ = m.ratio0 := Nat.mul_div_cancel _ hBpos
  have hbnoflow : m.ratio1 * x0 + m.ratio0 * x0 / B32 < B64 := by
    have b1 : m.ratio1 * x0 ≤ (B32 - 1) * (B32 - 1) :=
      Nat.mul_le_mul (by omega) (by omega)
    have a2 : m.ratio0 * x0 / B32 < B32 := by omega
    have e : (B32 - 1) * (B32 - 1) + B32 ≤ B64 := by norm_num [B32, B64]
    omega
  have hSnoflow : m.ratio1 * x0 + m.ratio0 * x0 / B32 + m.ratio0 * x1 < B64 := by
    have c1 : m.ratio1 * x0 ≤ m.ratio1 * (B32 - 1) :=
      Nat.mul_le_mul_left _ (by omega)
    have c2 : m.ratio0 * x1 ≤ m.ratio0 * (B32 - 1) :=
      Nat.mul_le_mul_left _ (by omega)
    have b2 : m.ratio1 * (B32 - 1) + m.ratio0 * (B32 - 1)
        = (m.ratio1 + m.ratio0) * (B32 - 1) := by ring
    have b3 : (m.ratio1 + m.ratio0) * (B32 - 1) ≤ (B32 - 1) * (B32 - 1) :=
      Nat.mul_le_mul_right _ (by omega)
    have e : (B32 - 1) * (B32 - 1) + B32 ≤ B64 := by norm_num [B32, B64]
    omega
  have hq3_val : (x0 + x1 * B32) * (B64 / m.value) / B64
      = x1 * m.ratio1 + (m.ratio1 * x0 + m.ratio0 * x0 / B32 + m.ratio0 * x1) / B32 := by
    rw [← hr, q3_split2]
  have hdvd : B32 ∣ B64 := by norm_num [B32, B64]
  have htmp : ((m.ratio1 * x1 +
        (((m.ratio1 * x0 + (m.ratio0 * x0) >>> 32) % B64 + m.ratio0 * x1) % B64) >>> 32)
        % B64) % B32 = ((x0 + x1 * B32) * (B64 / m.value) / B64) % B32 := by
    rw [ha, Nat.mod_eq_of_lt hbnoflow, Nat.mod_eq_of_lt hSnoflow,
      shiftRight32_eq_div, Nat.mod_mod_of_dvd _ hdvd, hq3_val,
      show m.ratio1 * x1 = x1 * m.ratio1 from Nat.mul_comm _ _]
  have hle := barrett_le m.value (x0 + x1 * B32) hm0
  have hlb := barrett_lb m.value (x0 + x1 * B32) hm0 hxlt
  simp only [reduce2]
  rw [htmp]
  refine final_steps (x0 + x1 * B32) x0 m.value
    ((x0 + x1 * B32) * (B64 / m.value) / B64)
    (((x0 + x1 * B32) * (B64 / m.value) / B64) % B32) ?_ ?_ hle hlb ?_ hm0
  · rw [Nat.add_mul_mod_self_right]
  · exact Nat.mod_mod_of_dvd _ dvd_rfl
  · have h : 2 ^ 30 * 2 ≤ B32 := by norm_num [B32]
    omega

/-- The multi-limb value denoted by a little-endian slice of words. -/
def polyval : List Nat → Nat
  | [] => 0
  | x :: xs => x + polyval xs * B32

/-- The right-to-left fold of the slice reduction computes the residue of
the whole multi-limb value. -/
theorem rfold_eq (m : Modulus) (hval : 2 ≤ m.value) (hv30 : m.value < 2 ^ 30)
    (hr : m.ratio0 + B32 * m.ratio1 = B64 / m.value)
    (hr0 : m.ratio0 < B32) (hr1 : m.ratio1 < B32) :
    ∀ (rest : List Nat) (x y : Nat), x < B32 → y < B32 →
      (∀ e ∈ rest, e < B32) →
      rfoldReduce m ((x :: y :: rest).dropLast) ((x :: y :: rest).getLastD 0)
        = polyval (x :: y :: rest) % m.value := by
  intro rest
  induction rest with
  | nil =>
    intro x y hx hy _
    show rfoldReduce m [x] y = polyval [x, y] % m.value
    show reduce2 x (rfoldReduce m [] y) m = _
    show reduce2 x y m = _
    rw [reduce2_eq m hval hv30 hr hr0 hr1 x y hx hy]
    simp [polyval]
  | cons z rest ih =>
    intro x y hx hy hrest
    have hz : z < B32 := hrest z (by simp)
    have hrest' : ∀ e ∈ rest, e < B32 := fun e he => hrest e (by simp [he])
    have hdrop : (x :: y :: z :: rest).dropLast = x :: (y :: z :: rest).dropLast :=
      rfl
    have hlast : (x :: y :: z :: rest).getLastD 0 = (y :: z :: rest).getLastD 0 := by
      simp [List.getLastD_cons]
    rw [hdrop, hlast]
    show reduce2 x (rfoldReduce m ((y :: z :: rest).dropLast)
      ((y :: z :: rest).getLastD 0)) m = _
    rw [ih y z hy hz hrest']
    have hmod_lt : polyval (y :: z :: rest) % m.value < B32 := by
      have := Nat.mod_lt (polyval (y :: z :: rest)) (show 0 < m.value by omega)
      have hB : (2:Nat) ^ 30 < B32 := by norm_num [B32]
      omega
    rw [reduce2_eq m hval hv30 hr hr0 hr1 x _ hx hmod_lt]
    show (x + polyval (y :: z :: rest) % m.value * B32) % m.value
      = polyval (x :: y :: z :: rest) % m.value
    have hcong : x + polyval (y :: z :: rest) % m.value * B32
        ≡ x + polyval (y :: z :: rest) * B32 [MOD m.value] :=
      Nat.ModEq.add_left x ((Nat.mod_modEq _ _).mul_right B32)
    rw [hcong]
    rfl

/-- **C10.** The slice form of `reduce` panics (`unreachable!`, modelled as
`none`) on the empty slice; on every non-empty slice of words it returns the
residue of the multi-limb value, which lies in `[0, modulus.value)`, by
folding the limbs right-to-left through the two-limb reduction. -/
theorem claim10_slice_reduce (v : Nat) (m : Modulus)
    (hm : Modulus.new? v = some m) (l : List Nat) :
    reduceSlice m [] = none ∧
    (l ≠ [] → (∀ e ∈ l, e < 2 ^ 32) →
      reduceSlice m l = some (polyval l % m.value) ∧
        polyval l % m.value < m.value) := by
  obtain ⟨hv, hv2, hv30, hr, hr0, hr1⟩ := new?_spec v m hm
  subst hv
  refine ⟨rfl, ?_⟩
  intro hne hbound
  have hmod_lt : polyval l % m.value < m.value :=
    Nat.mod_lt _ (by omega)
  refine ⟨?_, hmod_lt⟩
  match l with
  | [] => exact absurd rfl hne
  | [x] =>
    have hx : x < B32 := by simpa [B32] using hbound x (by simp)
    show some (if x < m.value then x else reduce1 x m)
      = some (polyval [x] % m.value)
    have hp : polyval [x] = x := by simp [polyval]
    rw [hp]
    by_cases hxm : x < m.value
    · rw [if_pos hxm, Nat.mod_eq_of_lt hxm]
    · rw [if_neg hxm, reduce1_eq m hv2 hv30 hr hr0 hr1 x hx]
  | x :: y :: rest =>
    have hx : x < B32 := by simpa [B32] using hbound x (by simp)
    have hy : y < B32 := by simpa [B32] using hbound y (by simp)
    have hrest : ∀ e ∈ rest, e < B32 := fun e he => by
      simpa [B32] using hbound e (by simp [he])
    show some (rfoldReduce m ((x :: y :: rest).dropLast)
      ((x :: y :: rest).getLastD 0)) = _
    rw [rfold_eq m hv2 hv30 hr hr0 hr1 rest x y hx hy hrest]

/-- Witness for C10: concrete three-limb slice under the modulus `97`. -/
theorem claim10_witness :
    reduceSlice (Modulus.make 97) [] = none ∧
      reduceSlice (Modulus.make 97) [5, 6, 7]
        = some (polyval [5, 6, 7] % 97) := by
  have h := claim10_slice_reduce 97 (Modulus.make 97) (by decide) [5, 6, 7]
  exact ⟨h.1, (h.2 (by simp) (by decide)).1⟩

/-! ## The precomputed multiplication factor (`MulModuloFactor<u32>`) -/

/-- Modelled from the spec: `widen_mul` (not under `src/`) is the full-width
multiply; only its high word is used ("one wide multiply-high of
`quotient·rhs`"). -/
def widenMulHigh (a b : Nat) : Nat := a * b / B32

/-- `MulModuloFactor<u32>`: a fixed operand and its precomputed quotient
`⌊value·2^32 / modulus⌋`. -/
structure MulModuloFactor where
  value : Nat
  quotient : Nat
deriving DecidableEq

/-- `MulModuloFactor::new`: `value` shifted left by the word width (a `u64`
shift), divided by the modulus, cast back to `u32`. -/
def MulModuloFactor.new (value modulus : Nat) : MulModuloFactor :=
  ⟨value, ((value <<< 32) % B64 / modulus) % B32⟩

/-- `MulModuloFactor::mul_modulo_lazy`: result in `[0, 2·modulus)`. -/
def MulModuloFactor.mul_modulo_lazy (s : MulModuloFactor) (rhs modulus : Nat) :
    Nat :=
  let hw := widenMulHigh s.quotient rhs
  wsub32 (wmul32 s.value rhs) (wmul32 hw modulus)

/-- `MulModulo::mul_reduce` (`impl MulModulo<u32, MulModuloFactor<u32>> for
u32`): the lazy product followed by one conditional correction. -/
def mulReduceFactor (x : Nat) (rhs : MulModuloFactor) (modulus : Nat) : Nat :=
  let hw := widenMulHigh x rhs.quotient
  let tmp := wsub32 (wmul32 x rhs.value) (wmul32 hw modulus)
  if modulus ≤ tmp then tmp - modulus else tmp

/-- Exact wrapping subtraction when the true difference fits a word. -/
theorem wsub_exact (a b : Nat) (hle : b ≤ a) (hlt : a - b < B32) :
    wsub32 (a % B32) (b % B32) = a - b := by
  simp only [wsub32, B32] at *
  omega

/-- The stored quotient of a valid factor is exactly `⌊w·2^32 / p⌋`. -/
theorem factor_quotient_eq (w p : Nat) (hw : w < p) (hp : p ≤ B32) :
    (MulModuloFactor.new w p).quotient = w * B32 / p := by
  have hp0 : 0 < p := by omega
  have hsh : w <<< 32 = w * B32 := by
    rw [Nat.shiftLeft_eq]
    congr 1
  have h1 : w * B32 < B64 := by
    rw [B64_eq_B32_mul]
    exact (Nat.mul_lt_mul_right (by norm_num [B32])).mpr (by omega)
  have h2 : w * B32 / p < B32 := by
    rw [Nat.div_lt_iff_lt_mul hp0]
    calc w * B32 < p * B32 := (Nat.mul_lt_mul_right (by norm_num [B32])).mpr hw
      _ = B32 * p := Nat.mul_comm _ _
  simp only [MulModuloFactor.new, hsh, Nat.mod_eq_of_lt h1, Nat.mod_eq_of_lt h2]

/-- Both Barrett-style bounds for the factor multiplication. -/
theorem factor_bounds (p w rhs : Nat) (hp : 0 < p) (hw : w < p)
    (hrhs : rhs < B32) :
    w * B32 / p * rhs / B32 * p ≤ rhs * w ∧
      rhs * w < w * B32 / p * rhs / B32 * p + 2 * p := by
  have hB : (0:Nat) < B32 := by norm_num [B32]
  constructor
  · have h1 : w * B32 / p * rhs ≤ w * B32 * rhs / p := by
      rw [Nat.le_div_iff_mul_le hp]
      calc w * B32 / p * rhs * p = w * B32 / p * p * rhs := by ring
        _ ≤ w * B32 * rhs := Nat.mul_le_mul_right rhs (Nat.div_mul_le_self _ _)
    have h2 : w * B32 * rhs / p / B32 = rhs * w / p := by
      rw [Nat.div_div_eq_div_mul, Nat.mul_comm p B32, ← Nat.div_div_eq_div_mul]
      rw [show w * B32 * rhs = w * rhs * B32 by ring]
      rw [Nat.mul_div_cancel _ hB, Nat.mul_comm w rhs]
    calc w * B32 / p * rhs / B32 * p
        ≤ w * B32 * rhs / p / B32 * p :=
          Nat.mul_le_mul_right p (Nat.div_le_div_right h1)
      _ = rhs * w / p * p := by rw [h2]
      _ ≤ rhs * w := Nat.div_mul_le_self _ _
  · set A := w * B32 / p with hA_def
    set R1 := w * B32 % p with hR1_def
    set Q := A * rhs / B32 with hQ_def
    set R2 := A * rhs % B32 with hR2_def
    have hd1 : p * A + R1 = w * B32 := Nat.div_add_mod _ _
    have hd2 : B32 * Q + R2 = A * rhs := Nat.div_add_mod _ _
    have hr1 : R1 < p := Nat.mod_lt _ hp
    have hr2 : R2 < B32 := Nat.mod_lt _ hB
    have main : rhs * (w * B32) = p * B32 * Q + p * R2 + rhs * R1 := by
      rw [← hd1]
      calc rhs * (p * A + R1) = p * (A * rhs) + rhs * R1 := by ring
        _ = p * (B32 * Q + R2) + rhs * R1 := by rw [hd2]
        _ = p * B32 * Q + p * R2 + rhs * R1 := by ring
    have hstep : rhs * w * B32 < (Q * p + 2 * p) * B32 := by
      calc rhs * w * B32 = rhs * (w * B32) := by ring
        _ = p * B32 * Q + p * R2 + rhs * R1 := main
        _ < p * B32 * Q + p * B32 + B32 * p := by
            have a1 : p * R2 < p * B32 := (Nat.mul_lt_mul_left hp).mpr hr2
            have a2 : rhs * R1 < B32 * p :=
              Nat.mul_lt_mul_of_lt_of_le hrhs (by omega) hp
            omega
        _ = (Q * p + 2 * p) * B32 := by ring
    exact Nat.lt_of_mul_lt_mul_right hstep

/-- **C2.** For a factor with `value < p` (so that the stored quotient equals
`⌊value·2^32/p⌋`) and `2p ≤ 2^32`, `mul_modulo_lazy` is congruent to
`rhs·value` modulo `p` with result in `[0, 2p)`, and the strict `mul_reduce`
returns exactly `rhs·value mod p`, in `[0, p)`. -/
theorem claim2_mul_factor (p w rhs : Nat) (hw : w < p) (hp2 : 2 * p ≤ B32)
    (hrhs : rhs < B32) :
    (MulModuloFactor.new w p).mul_modulo_lazy rhs p % p = rhs * w % p ∧
      (MulModuloFactor.new w p).mul_modulo_lazy rhs p < 2 * p ∧
      mulReduceFactor rhs (MulModuloFactor.new w p) p = rhs * w % p ∧
      mulReduceFactor rhs (MulModuloFactor.new w p) p < p := by
  have hp0 : 0 < p := by omega
  have hq := factor_quotient_eq w p hw (by omega)
  obtain ⟨hle, hlb⟩ := factor_bounds p w rhs hp0 hw hrhs
  have hnew_val : (MulModuloFactor.new w p).value = w := rfl
  have hlazy : (MulModuloFactor.new w p).mul_modulo_lazy rhs p
      = rhs * w - w * B32 / p * rhs / B32 * p := by
    simp only [MulModuloFactor.mul_modulo_lazy, hnew_val, hq, widenMulHigh]
    show wsub32 ((w * rhs) % B32) ((w * B32 / p * rhs / B32 * p) % B32) = _
    rw [show w * rhs = rhs * w from Nat.mul_comm _ _]
    exact wsub_exact _ _ hle (by omega)
  have hstrict : mulReduceFactor rhs (MulModuloFactor.new w p) p
      = rhs * w % p := by
    simp only [mulReduceFactor, hnew_val, hq, widenMulHigh]
    exact final_steps (rhs * w) (wmul32 rhs w) p
      (w * B32 / p * rhs / B32) (rhs * (w * B32 / p) / B32)
      (Nat.mod_mod_of_dvd _ dvd_rfl)
      (by rw [Nat.mul_comm rhs (w * B32 / p)]) hle hlb hp2 hp0
  refine ⟨?_, ?_, hstrict, ?_⟩
  · rw [hlazy]
    conv_rhs => rw [← Nat.sub_add_cancel hle]
    rw [Nat.add_mul_mod_self_right]
  · rw [hlazy]; omega
  · rw [hstrict]; exact Nat.mod_lt _ hp0

/-- Witness for C2: `p = 97`, `value = 42`, `rhs = 1234567`. -/
theorem claim2_witness :
    (MulModuloFactor.new 42 97).mul_modulo_lazy 1234567 97 % 97
        = 1234567 * 42 % 97 ∧
      mulReduceFactor 1234567 (MulModuloFactor.new 42 97) 97 < 97 := by
  have h := claim2_mul_factor 97 42 1234567 (by norm_num)
    (by norm_num [B32]) (by norm_num [B32])
  exact ⟨h.1, h.2.2.2⟩

/-! ## The power-of-two modulus (`PowOf2Modulus<u32>`) -/

/-- `PowOf2Modulus<u32>`: stores only the mask `value - 1`. -/
structure PowOf2Modulus where
  mask : Nat
deriving DecidableEq

/-- `PowOf2Modulus::new`, with the `assert!(value > 1 &&
value.is_power_of_two())` modelled as `none` (`is_power_of_two` is the
standard bit test `value & (value - 1) == 0`). -/
def PowOf2Modulus.new? (value : Nat) : Option PowOf2Modulus :=
  if 1 < value ∧ value &&& (value - 1) = 0 then some ⟨value - 1⟩ else none

/-- `Reduce::reduce` for `PowOf2Modulus`: a single mask. -/
def reduceP2 (x : Nat) (m : PowOf2Modulus) : Nat := x &&& m.mask

/-- `MulReduce::mul_reduce` for `PowOf2Modulus`: wrapping multiply, then
mask. -/
def mulReduceP2 (a b : Nat) (m : PowOf2Modulus) : Nat :=
  (a * b) % B32 &&& m.mask

/-- `u32::trailing_zeros` for a nonzero value, with explicit fuel. -/
def tzAux : Nat → Nat → Nat
  | 0, _ => 0
  | fuel + 1, e => if e % 2 = 0 ∧ e ≠ 0 then tzAux fuel (e / 2) + 1 else 0

/-- `exp.trailing_zeros()` for a 32-bit exponent. -/
def trailingZeros32 (e : Nat) : Nat := tzAux 32 e

/-- The `for _ in 0..exp_trailing_zeros` squaring loop of `exp_reduce`. -/
def sqLoop (m : PowOf2Modulus) : Nat → Nat → Nat
  | 0, power => power
  | n + 1, power => sqLoop m n (mulReduceP2 power power m)

/-- The `for _ in 1..(BITS - leading_zeros)` square-and-multiply loop of
`exp_reduce`, carrying `(exp, power, intermediate)`. -/
def expLoop (m : PowOf2Modulus) : Nat → Nat → Nat → Nat → Nat
  | 0, _, _, intermediate => intermediate
  | n + 1, e, power, intermediate =>
    let e' := e >>> 1
    let power' := mulReduceP2 power power m
    let intermediate' :=
      if e' &&& 1 ≠ 0 then mulReduceP2 intermediate power' m else intermediate
    expLoop m n e' power' intermediate'

/-- `ExpReduce::exp_reduce` for `PowOf2Modulus<u32>` with a `u32` exponent:
trailing-zero fast-forward, then binary square-and-multiply. -/
def exp_reduce (x exp : Nat) (m : PowOf2Modulus) : Nat :=
  if exp = 0 then 1
  else
    let tz := trailingZeros32 exp
    let power := if 0 < tz then sqLoop m tz x else x
    let exp1 := exp >>> tz
    if exp1 = 1 then power
    else expLoop m (bitLen32 exp1 - 1) exp1 power power

/-- Masking is reduction modulo the power of two. -/
theorem mulReduceP2_eq (k : Nat) (hk : k ≤ 32) (m : PowOf2Modulus)
    (hm : m.mask = 2 ^ k - 1) (a b : Nat) :
    mulReduceP2 a b m = a * b % 2 ^ k := by
  rw [mulReduceP2, hm, Nat.and_pow_two_sub_one_eq_mod]
  rw [show B32 = 2 ^ 32 from rfl]
  exact Nat.mod_mod_of_dvd _ (pow_dvd_pow 2 hk)

/-- Reducing the right factor first does not change a product's residue. -/
theorem mul_mod_right_arg (h a N : Nat) : h * (a % N) % N = h * a % N := by
  conv_lhs => rw [Nat.mul_mod, Nat.mod_mod, ← Nat.mul_mod]

/-- Reducing the base first does not change a power's residue. -/
theorem pow_mod_rev (a D N : Nat) : (a % N) ^ D % N = a ^ D % N :=
  (Nat.pow_mod a D N).symm

theorem mod_mul_pow_mod (N h a D : Nat) :
    (h * (a % N) % N) * ((a % N) ^ D % N) % N = h * a ^ (D + 1) % N := by
  rw [pow_mod_rev, mul_mod_right_arg, Nat.mod_mul_mod,
    show h * (a % N) * a ^ D = h * a ^ D * (a % N) from by ring,
    mul_mod_right_arg, pow_succ]
  congr 1
  ring

theorem mod_mul_pow_mod' (N h a D : Nat) :
    (h % N) * ((a % N) ^ D % N) % N = h * a ^ D % N := by
  rw [pow_mod_rev, mul_mod_right_arg, Nat.mod_mul_mod]

/-- The squaring loop computes `power^(2^n)`. -/
theorem sqLoop_eq (k : Nat) (hk : k ≤ 32) (m : PowOf2Modulus)
    (hm : m.mask = 2 ^ k - 1) :
    ∀ (n power : Nat), power < 2 ^ k →
      sqLoop m n power = power ^ 2 ^ n % 2 ^ k := by
  intro n
  induction n with
  | zero =>
    intro power hp
    simp [sqLoop, Nat.mod_eq_of_lt hp]
  | succ n ih =>
    intro power hp
    show sqLoop m n (mulReduceP2 power power m) = _
    rw [mulReduceP2_eq k hk m hm]
    rw [ih _ (Nat.mod_lt _ (Nat.two_pow_pos k))]
    rw [pow_mod_rev]
    congr 1
    rw [show power * power = power ^ 2 from by ring, ← pow_mul]
    congr 1
    rw [pow_succ]
    ring

/-- The main loop accumulates the remaining (even) part of the exponent. -/
theorem expLoop_eq (k : Nat) (hk : k ≤ 32) (m : PowOf2Modulus)
    (hm : m.mask = 2 ^ k - 1) :
    ∀ (n e g h : Nat), h < 2 ^ k → e / 2 < 2 ^ n →
      expLoop m n e g h = h * g ^ (2 * (e / 2)) % 2 ^ k := by
  intro n
  induction n with
  | zero =>
    intro e g h hh he
    have : e / 2 = 0 := by omega
    simp [expLoop, this, Nat.mod_eq_of_lt hh]
  | succ n ih =>
    intro e g h hh he
    show expLoop m n (e >>> 1) (mulReduceP2 g g m)
      (if (e >>> 1) &&& 1 ≠ 0 then mulReduceP2 h (mulReduceP2 g g m) m else h)
      = _
    have hshift : e >>> 1 = e / 2 := by
      rw [Nat.shiftRight_eq_div_pow]
    have hand : (e >>> 1) &&& 1 = e / 2 % 2 := by
      rw [hshift, Nat.and_one_is_mod]
    have hg2 : mulReduceP2 g g m = g * g % 2 ^ k := mulReduceP2_eq k hk m hm g g
    have hlt : ∀ a : Nat, a % 2 ^ k < 2 ^ k := fun a => Nat.mod_lt _ (Nat.two_pow_pos k)
    have hdiv : e / 2 / 2 < 2 ^ n := by
      rw [Nat.div_lt_iff_lt_mul (by norm_num)]
      calc e / 2 < 2 ^ (n + 1) := he
        _ = 2 ^ n * 2 := pow_succ 2 n
    by_cases hb : e / 2 % 2 = 1
    · rw [if_pos (by rw [hand, hb]; omega)]
      rw [hshift, hg2]
      rw [mulReduceP2_eq k hk m hm]
      rw [ih (e / 2) (g * g % 2 ^ k) _ (hlt _) hdiv]
      rw [Nat.mul_mod, Nat.mod_mod, mod_mul_pow_mod]
      congr 1
      rw [show g * g = g ^ 2 from by ring, ← pow_mul]
      congr 2
      omega
    · rw [if_neg (by rw [hand]; omega)]
      rw [hshift, hg2]
      rw [ih (e / 2) (g * g % 2 ^ k) h hh hdiv]
      rw [Nat.mul_mod, mod_mul_pow_mod']
      congr 1
      rw [show g * g = g ^ 2 from by ring, ← pow_mul]
      congr 2
      omega

/-- Trailing zeros: the shifted value is odd and reassembles the original. -/
theorem tzAux_spec : ∀ (fuel e : Nat), 0 < e → e < 2 ^ fuel →
    (e >>> tzAux fuel e) % 2 = 1 ∧
      2 ^ tzAux fuel e * (e >>> tzAux fuel e) = e := by
  intro fuel
  induction fuel with
  | zero => intro e he hlt; omega
  | succ fuel ih =>
    intro e he hlt
    by_cases hc : e % 2 = 0 ∧ e ≠ 0
    · rw [show tzAux (fuel + 1) e = tzAux fuel (e / 2) + 1 by
        simp [tzAux, hc]]
      have he2 : 0 < e / 2 := by omega
      have hlt2 : e / 2 < 2 ^ fuel := by
        rw [Nat.div_lt_iff_lt_mul (by norm_num)]
        calc e < 2 ^ (fuel + 1) := hlt
          _ = 2 ^ fuel * 2 := pow_succ 2 fuel
      obtain ⟨ho, hre⟩ := ih (e / 2) he2 hlt2
      have hcomp : e >>> (tzAux fuel (e / 2) + 1) = (e / 2) >>> tzAux fuel (e / 2) := by
        rw [Nat.shiftRight_eq_div_pow, Nat.shiftRight_eq_div_pow, pow_succ,
          Nat.mul_comm (2 ^ tzAux fuel (e / 2)) 2, ← Nat.div_div_eq_div_mul]
      rw [hcomp]
      refine ⟨ho, ?_⟩
      rw [pow_succ, Nat.mul_comm (2 ^ tzAux fuel (e / 2)) 2, Nat.mul_assoc, hre]
      omega
    · have hodd : e % 2 = 1 := by
        rcases Nat.mod_two_eq_zero_or_one e with h0 | h1
        · exact absurd ⟨h0, by omega⟩ hc
        · exact h1
      rw [show tzAux (fuel + 1) e = 0 by simp [tzAux, hc]]
      simp only [Nat.shiftRight_zero, pow_zero, Nat.one_mul]
      exact ⟨hodd, trivial⟩

/-- A positive 32-bit value is below `2 ^ bitLen32`. -/
theorem lt_two_pow_bitLen32 (e : Nat) (he : e < 2 ^ 32) : e < 2 ^ bitLen32 e := by
  by_cases hc : bitLen32 e ≤ 31
  · have : bitLen32 e ≤ bitLen32 e := le_refl _
    exact lt_of_bitLenAux_le 32 (bitLen32 e) e (by omega) (le_refl _)
  · have h32 : bitLen32 e ≤ 32 := by
      have := bitLenAux_le_of_lt 32 32 e (le_refl _) (by simpa using he)
      simpa [bitLen32] using this
    have : bitLen32 e = 32 := by omega
    rw [this]
    exact he

/-- Positive values have a positive bit length. -/
theorem bitLen32_pos (e : Nat) (he : 0 < e) : 0 < bitLen32 e := by
  by_contra hc
  push_neg at hc
  have := lt_of_bitLenAux_le 32 0 e (by omega) (by simpa [bitLen32] using hc)
  omega

/-- **C9.** For every power-of-two modulus `2^k > 1`, every base in
`[0, mask]` and every 32-bit exponent, `exp_reduce` computes
`base ^ exp mod 2^k` by binary square-and-multiply (exponent `0` gives `1`). -/
theorem claim9_exp_reduce (k : Nat) (hk1 : 1 ≤ k) (hk : k ≤ 31)
    (m : PowOf2Modulus) (hm : PowOf2Modulus.new? (2 ^ k) = some m)
    (base exp : Nat) (hbase : base ≤ m.mask) (hexp : exp < 2 ^ 32) :
    exp_reduce base exp m = base ^ exp % 2 ^ k := by
  have hmask : m.mask = 2 ^ k - 1 := by
    unfold PowOf2Modulus.new? at hm
    split at hm
    · injection hm with hm'; rw [← hm']
    · exact absurd hm (by simp)
  have hk32 : k ≤ 32 := by omega
  have h2k : 2 ≤ 2 ^ k := by
    calc 2 = 2 ^ 1 := rfl
      _ ≤ 2 ^ k := Nat.pow_le_pow_right (by norm_num) hk1
  have hbase' : base < 2 ^ k := by omega
  by_cases hz : exp = 0
  · subst hz
    rw [show exp_reduce base 0 m = 1 from rfl]
    rw [pow_zero, Nat.mod_eq_of_lt (by omega)]
  · obtain ⟨hodd0, hre0⟩ := tzAux_spec 32 exp (by omega) hexp
    set tz := trailingZeros32 exp with htz_def
    have htzAux : tzAux 32 exp = tz := rfl
    rw [htzAux] at hodd0 hre0
    set exp1 := exp >>> tz with hexp1_def
    have hpow_eq : (if 0 < tz then sqLoop m tz base else base)
        = base ^ 2 ^ tz % 2 ^ k := by
      by_cases htz : 0 < tz
      · rw [if_pos htz, sqLoop_eq k hk32 m hmask tz base hbase']
      · rw [if_neg htz]
        have h0 : tz = 0 := by omega
        rw [h0, pow_zero, pow_one, Nat.mod_eq_of_lt hbase']
    show (if exp = 0 then 1 else _) = _
    rw [if_neg hz]
    show (if exp1 = 1 then (if 0 < tz then sqLoop m tz base else base)
      else expLoop m (bitLen32 exp1 - 1) exp1
        (if 0 < tz then sqLoop m tz base else base)
        (if 0 < tz then sqLoop m tz base else base)) = _
    by_cases h1 : exp1 = 1
    · rw [if_pos h1, hpow_eq]
      congr 2
      rw [← hre0, h1, Nat.mul_one]
    · rw [if_neg h1, hpow_eq]
      have hexp1_pos : 0 < exp1 := by
        rcases Nat.eq_zero_or_pos exp1 with h0 | h0
        · rw [h0, Nat.mul_zero] at hre0
          omega
        · exact h0
      have hexp1_lt : exp1 < 2 ^ 32 := by
        rw [hexp1_def, Nat.shiftRight_eq_div_pow]
        calc exp / 2 ^ tz ≤ exp := Nat.div_le_self _ _
          _ < 2 ^ 32 := hexp
      have hL := lt_two_pow_bitLen32 exp1 hexp1_lt
      have hLpos := bitLen32_pos exp1 hexp1_pos
      have hhalf : exp1 / 2 < 2 ^ (bitLen32 exp1 - 1) := by
        rw [Nat.div_lt_iff_lt_mul (by norm_num)]
        calc exp1 < 2 ^ bitLen32 exp1 := hL
          _ = 2 ^ (bitLen32 exp1 - 1) * 2 := by
            rw [← pow_succ]
            congr 1
            omega
      rw [expLoop_eq k hk32 m hmask (bitLen32 exp1 - 1) exp1 _ _
        (Nat.mod_lt _ (Nat.two_pow_pos k)) hhalf]
      rw [show 2 * (exp1 / 2) = exp1 - 1 from by omega]
      rw [← pow_succ']
      rw [show exp1 - 1 + 1 = exp1 from by omega]
      rw [pow_mod_rev, ← pow_mul]
      rw [show 2 ^ tz * exp1 = exp from hre0]

/-- Witness for C9: `2^4 = 16`, base `7`, exponent `13`. -/
theorem claim9_witness :
    PowOf2Modulus.new? (2 ^ 4) = some ⟨15⟩ ∧
      exp_reduce 7 13 ⟨15⟩ = 7 ^ 13 % 2 ^ 4 := by
  refine ⟨by decide, ?_⟩
  exact claim9_exp_reduce 4 (by norm_num) (by norm_num) ⟨15⟩ (by decide) 7 13
    (by norm_num) (by norm_num)

/-! ## The prime field `Fp32` -/

/-- The fixed prime of `Fp32` (`0x7e00001`). -/
def P : Nat := 132120577

/-- `Fp32::BARRETT_MODULUS = Modulus::<u32>::new(P)`. -/
def barrettP : Modulus := Modulus.make P

/-- `Fp32::new` / `From<u32> for Fp32`: stores the raw value unchanged. -/
def Fp32.new (value : Nat) : Nat := value

/-- Modelled from the spec: `mul_reduce` of two words with a Barrett modulus
(its `impl` is not under `src/`): the widening multiply followed by the
two-limb Barrett reduction of §4.1. -/
def mulBar (a b : Nat) (m : Modulus) : Nat :=
  reduce2 (a * b % B32) (a * b / B32) m

/-- Modelled from the spec: `add_reduce` (not under `src/`) returns the
canonical residue of the sum. -/
def addP (a b : Nat) : Nat := (a + b) % P

/-- Modelled from the spec: `sub_reduce` (not under `src/`) returns the
canonical residue of the difference. -/
def subP (a b : Nat) : Nat := (a + P - b) % P

/-- Modelled from the spec: `neg_reduce` (not under `src/`) returns the
canonical residue of the negation. -/
def negP (a : Nat) : Nat := (P - a) % P

/-- Modelled from the spec: `pow_reduce` (not under `src/`) is binary
square-and-multiply over the exponent bits, with each product reduced through
the Barrett modulus; structural fuel `32` covers every `u32` exponent. -/
def powBarAux : Nat → Nat → Nat → Nat
  | 0, _, _ => 1
  | fuel + 1, b, e =>
    if e = 0 then 1
    else
      let h := powBarAux fuel b (e / 2)
      let h2 := mulBar h h barrettP
      if e % 2 = 1 then mulBar h2 b barrettP else h2

/-- `Fp32::pow` (`pow_reduce` with the Barrett modulus). -/
def powP (b e : Nat) : Nat := powBarAux 32 b e

/-- Modelled from the spec: `inv_reduce` (not under `src/`) is Fermat
exponentiation `a^(P-2) mod P`. -/
def invP (a : Nat) : Nat := powP a (P - 2)

/-- The Barrett modulus of `P` validates and carries `P` itself. -/
theorem barrettP_valid : Modulus.new? P = some barrettP := by decide

theorem barrettP_facts : barrettP.value = P ∧ 2 ≤ P ∧ P < 2 ^ 30 ∧
    barrettP.ratio0 + B32 * barrettP.ratio1 = B64 / P ∧
    barrettP.ratio0 < B32 ∧ barrettP.ratio1 < B32 :=
  new?_spec P barrettP barrettP_valid

/-- The modelled field multiplication is multiplication mod `P`. -/
theorem mulBar_eq (a b : Nat) (ha : a < B32) (hb : b < B32) :
    mulBar a b barrettP = a * b % P := by
  obtain ⟨hv, h2, h30, hr, hr0, hr1⟩ := barrettP_facts
  have := reduce2_eq barrettP (by omega) (by omega) hr hr0 hr1
    (a * b % B32) (a * b / B32) (Nat.mod_lt _ (by norm_num [B32]))
    (by
      rw [Nat.div_lt_iff_lt_mul (show 0 < B32 by norm_num [B32])]
      calc a * b < B32 * B32 := Nat.mul_lt_mul_of_lt_of_le ha (by omega)
            (by norm_num [B32])
        _ = B32 * B32 := rfl)
  rw [mulBar, this, hv]
  congr 1
  simp only [B32]
  omega

/-- `P` is below the word bound. -/
theorem P_lt_B32 : P < B32 := by norm_num [P, B32]

/-- The modelled field power is exponentiation mod `P`. -/
theorem powBarAux_eq : ∀ (fuel b e : Nat), b < B32 → e < 2 ^ fuel →
    powBarAux fuel b e = b ^ e % P := by
  intro fuel
  induction fuel with
  | zero =>
    intro b e _ he
    interval_cases e
    show 1 = b ^ 0 % P
    rw [pow_zero, Nat.mod_eq_of_lt (by norm_num [P])]
  | succ fuel ih =>
    intro b e hb he
    by_cases h0 : e = 0
    · subst h0
      show 1 = b ^ 0 % P
      rw [pow_zero, Nat.mod_eq_of_lt (by norm_num [P])]
    · have hhalf : e / 2 < 2 ^ fuel := by
        rw [Nat.div_lt_iff_lt_mul (by norm_num)]
        calc e < 2 ^ (fuel + 1) := he
          _ = 2 ^ fuel * 2 := pow_succ 2 fuel
      have hrec := ih b (e / 2) hb hhalf
      have hP32 : ∀ x : Nat, x % P < B32 :=
        fun x => lt_trans (Nat.mod_lt _ (by norm_num [P])) P_lt_B32
      have c2 : Nat.ModEq P (b ^ (e / 2) % P) (b ^ (e / 2)) := Nat.mod_modEq _ _
      have c3 : Nat.ModEq P (b ^ (e / 2) % P * (b ^ (e / 2) % P))
          (b ^ (e / 2) * b ^ (e / 2)) := c2.mul c2
      show (if e = 0 then 1 else _) = _
      rw [if_neg h0]
      show (if e % 2 = 1
        then mulBar (mulBar (powBarAux fuel b (e / 2))
          (powBarAux fuel b (e / 2)) barrettP) b barrettP
        else mulBar (powBarAux fuel b (e / 2))
          (powBarAux fuel b (e / 2)) barrettP) = _
      rw [hrec]
      rw [mulBar_eq _ _ (hP32 _) (hP32 _)]
      by_cases hodd : e % 2 = 1
      · rw [if_pos hodd, mulBar_eq _ _ (hP32 _) hb]
        have c4 : Nat.ModEq P (b ^ (e / 2) % P * (b ^ (e / 2) % P) % P * b)
            (b ^ (e / 2) * b ^ (e / 2) * b) :=
          ((Nat.mod_modEq _ P).trans c3).mul_right b
        have c4' : b ^ (e / 2) % P * (b ^ (e / 2) % P) % P * b % P
            = b ^ (e / 2) * b ^ (e / 2) * b % P := c4
        rw [c4']
        have hexp : b ^ (e / 2) * b ^ (e / 2) * b = b ^ e := by
          rw [← pow_add, ← pow_succ]
          congr 1
          omega
        rw [hexp]
      · rw [if_neg hodd]
        have c3' : b ^ (e / 2) % P * (b ^ (e / 2) % P) % P
            = b ^ (e / 2) * b ^ (e / 2) % P := c3
        rw [c3']
        have hexp : b ^ (e / 2) * b ^ (e / 2) = b ^ e := by
          rw [← pow_add]
          congr 1
          omega
        rw [hexp]

theorem powP_eq (b e : Nat) (hb : b < B32) (he : e < 2 ^ 32) :
    powP b e = b ^ e % P :=
  powBarAux_eq 32 b e hb he

/-- `is_primitive_root`: zero is never primitive, otherwise test
`root.pow(degree >> 1) == P - 1`.  (The `assert!` on `degree` is carried as a
hypothesis of the theorems below.) -/
def isPrimitiveRoot (root degree : Nat) : Bool :=
  if root = 0 then false else powP root (degree >>> 1) == P - 1

/-- The `(0..100).any(...)` search of `try_primitive_root`: each attempt
raises the next random sample to the power `quotient`; the first primitive
candidate is returned.  `fuel` counts the remaining attempts, `i` the next
sample index. -/
def searchRoot (samples : Nat → Nat) (quotient degree : Nat) :
    Nat → Nat → Option Nat
  | 0, _ => none
  | fuel + 1, i =>
    let w := powP (samples i) quotient
    if isPrimitiveRoot w degree then some w
    else searchRoot samples quotient degree fuel (i + 1)

/-- `try_primitive_root`, with the random generator abstracted as the oracle
`samples` and the `NoPrimitiveRoot` error modelled as `none`. -/
def tryPrimitiveRoot (degree : Nat) (samples : Nat → Nat) : Option Nat :=
  let quotient := (P - 1) / degree
  if P - 1 ≠ quotient * degree then none
  else searchRoot samples quotient degree 100 0

/-- A successful search returns a primitive power of one of the samples. -/
theorem searchRoot_some (samples : Nat → Nat) (q d : Nat) :
    ∀ (fuel i w : Nat), searchRoot samples q d fuel i = some w →
      isPrimitiveRoot w d = true ∧ ∃ j, w = powP (samples j) q := by
  intro fuel
  induction fuel with
  | zero => intro i w h; exact absurd h (by simp [searchRoot])
  | succ fuel ih =>
    intro i w h
    rw [searchRoot] at h
    split at h
    · next hp =>
      injection h with h'
      subst h'
      exact ⟨hp, i, rfl⟩
    · exact ih (i + 1) w h

/-- When every attempt fails, the search returns `none`. -/
theorem searchRoot_none (samples : Nat → Nat) (q d : Nat) :
    ∀ (fuel i : Nat),
      (∀ j, i ≤ j → j < i + fuel →
        isPrimitiveRoot (powP (samples j) q) d = false) →
      searchRoot samples q d fuel i = none := by
  intro fuel
  induction fuel with
  | zero => intro i _; rfl
  | succ fuel ih =>
    intro i hfail
    rw [searchRoot]
    rw [if_neg (by rw [hfail i (le_refl i) (by omega)]; simp)]
    exact ih (i + 1) (fun j h1 h2 => hfail j (by omega) (by omega))

/-- **C4.** For every power-of-two degree `> 1` dividing `P - 1` (and any
sample oracle of 32-bit values), a root returned by `try_primitive_root`
satisfies `root^(degree/2) = P - 1` and `root^degree = 1` in `Fp32`. -/
theorem claim4_primitive_root (degree : Nat) (samples : Nat → Nat)
    (hs : ∀ i, samples i < 2 ^ 32) (j : Nat) (hj : 1 ≤ j) (hj31 : j ≤ 31)
    (hdeg : degree = 2 ^ j) (root : Nat)
    (h : tryPrimitiveRoot degree samples = some root) :
    powP root (degree / 2) = P - 1 ∧ powP root degree = 1 := by
  rw [tryPrimitiveRoot] at h
  split at h
  · exact absurd h (by simp)
  · obtain ⟨hprim, i, hw⟩ := searchRoot_some samples _ degree 100 0 root h
    have hroot_lt : root < P := by
      rw [hw, powP_eq _ _ (by simpa [B32] using hs i) (by
        have : (P - 1) / degree ≤ P - 1 := Nat.div_le_self _ _
        norm_num [P] at this ⊢
        omega)]
      exact Nat.mod_lt _ (by norm_num [P])
    rw [isPrimitiveRoot] at hprim
    split at hprim
    · exact absurd hprim (by simp)
    · next hne =>
      have hpow : powP root (degree >>> 1) = P - 1 := by
        simpa using hprim
      have hshift : degree >>> 1 = degree / 2 := by
        rw [Nat.shiftRight_eq_div_pow, pow_one]
      rw [hshift] at hpow
      refine ⟨hpow, ?_⟩
      have hd2 : degree / 2 < 2 ^ 32 := by
        have : degree ≤ 2 ^ 31 := by
          rw [hdeg]; exact Nat.pow_le_pow_right (by norm_num) hj31
        have h32 : (2:Nat) ^ 31 < 2 ^ 32 := by norm_num
        omega
      have hdlt : degree < 2 ^ 32 := by
        have : degree ≤ 2 ^ 31 := by
          rw [hdeg]; exact Nat.pow_le_pow_right (by norm_num) hj31
        have h32 : (2:Nat) ^ 31 < 2 ^ 32 := by norm_num
        omega
      have hroot32 : root < B32 := lt_trans hroot_lt P_lt_B32
      rw [powP_eq _ _ hroot32 hd2] at hpow
      rw [powP_eq _ _ hroot32 hdlt]
      have heven : degree = degree / 2 * 2 := by
        rw [hdeg]
        cases j with
        | zero => omega
        | succ j' =>
          rw [pow_succ, Nat.mul_div_cancel _ (by norm_num)]
      rw [heven, pow_mul]
      rw [Nat.pow_mod, hpow]
      decide

set_option maxRecDepth 100000 in
/-- Witness for C4: degree `4` with the constant sample `5` succeeds. -/
theorem claim4_witness :
    tryPrimitiveRoot 4 (fun _ => 5) = some 130039810 ∧
      powP 130039810 (4 / 2) = P - 1 ∧ powP 130039810 4 = 1 := by
  have h : tryPrimitiveRoot 4 (fun _ => 5) = some 130039810 := by decide
  exact ⟨h, claim4_primitive_root 4 (fun _ => 5) (fun _ => by norm_num) 2
    (by norm_num) (by norm_num) (by norm_num) 130039810 h⟩

/-- **C8.** If `degree` (nonzero) does not divide `P - 1`,
`try_primitive_root` fails with the no-primitive-root error on every call,
independently of the sample oracle (the divisibility check precedes any
sampling); if it does divide, the search makes at most 100 attempts and
fails (rather than looping) when they all fail. -/
theorem claim8_error_paths (degree : Nat) (samples : Nat → Nat) :
    (0 < degree → ¬ degree ∣ (P - 1) →
      tryPrimitiveRoot degree samples = none) ∧
    ((∀ i, i < 100 →
        isPrimitiveRoot (powP (samples i) ((P - 1) / degree)) degree = false) →
      tryPrimitiveRoot degree samples = none) := by
  constructor
  · intro hpos hndvd
    rw [tryPrimitiveRoot]
    rw [if_pos]
    intro heq
    exact hndvd ⟨(P - 1) / degree, by rw [Nat.mul_comm]; exact heq⟩
  · intro hfail
    rw [tryPrimitiveRoot]
    split
    · rfl
    · exact searchRoot_none samples _ degree 100 0
        (fun j h1 h2 => hfail j (by omega))

set_option maxRecDepth 100000 in
/-- Witness for C8: degree `5` does not divide `P - 1`; for degree `4`
the constant sample `1` fails all 100 attempts. -/
theorem claim8_witness :
    tryPrimitiveRoot 5 (fun _ => 5) = none ∧
      tryPrimitiveRoot 4 (fun _ => 1) = none := by
  constructor
  · exact (claim8_error_paths 5 (fun _ => 5)).1 (by norm_num) (by decide)
  · exact (claim8_error_paths 4 (fun _ => 1)).2 (fun i _ => by decide)

/-! ## Gadget decomposition (`decompose` / `decompose_len`) -/

/-- The local `div_ceil` helper of `decompose_len`. -/
def div_ceil (lhs rhs : Nat) : Nat :=
  let d := lhs / rhs
  let r := lhs % rhs
  if 0 < r then d + 1 else d

/-- `decompose_len`: `div_ceil(bit_count of the Barrett modulus,
basis.trailing_zeros())`. -/
def decomposeLen (basis : Nat) : Nat :=
  div_ceil barrettP.bit_count (trailingZeros32 basis)

/-- The `while !temp.is_zero()` digit loop of `decompose`; structural fuel
`32` covers every `u32` input for any positive digit width. -/
def decomposeLoop : Nat → Nat → Nat → Nat → List Nat
  | 0, _, _, _ => []
  | fuel + 1, temp, bits, mask =>
    if temp = 0 then []
    else (temp &&& mask) :: decomposeLoop fuel (temp >>> bits) bits mask

/-- `Vec::resize(len, 0)`: truncate or zero-pad to the requested length. -/
def resize (l : List Nat) (len : Nat) : List Nat :=
  l.take len ++ List.replicate (len - l.length) 0

/-- `Fp32::decompose`. -/
def decompose (a basis : Nat) : List Nat :=
  let bits := trailingZeros32 basis
  let len := decomposeLen basis
  let mask := (B32 - 1) >>> (32 - bits)
  resize (decomposeLoop 32 a bits mask) len

/-- Little-endian recomposition `Σ digit_i · basis^i` (Horner form). -/
def compose (basis : Nat) (digits : List Nat) : Nat :=
  digits.foldr (fun d acc => d + basis * acc) 0

/-- The all-ones word shifted right yields the digit mask. -/
theorem mask_eq (b : Nat) (hb1 : 1 ≤ b) (hb : b ≤ 32) :
    (B32 - 1) >>> (32 - b) = 2 ^ b - 1 := by
  rw [Nat.shiftRight_eq_div_pow]
  have h1 : 2 ^ b * 2 ^ (32 - b) = 2 ^ 32 := by
    rw [← pow_add]
    congr 1
    omega
  have h3 : (1:Nat) ≤ 2 ^ (32 - b) := Nat.one_le_two_pow
  have h4 : (2:Nat) ^ (32 - b) ≤ 2 ^ 32 :=
    Nat.pow_le_pow_right (by norm_num) (by omega)
  have key : B32 - 1 = (2 ^ (32 - b) - 1) + (2 ^ b - 1) * 2 ^ (32 - b) := by
    rw [Nat.sub_mul, one_mul, h1]
    simp only [B32]
    omega
  rw [key, Nat.add_mul_div_right _ _ (Nat.pos_pow_of_pos _ (by norm_num)),
    Nat.div_eq_of_lt (by omega), Nat.zero_add]

/-- `trailing_zeros` of a power of two is its exponent. -/
theorem trailingZeros32_two_pow (b : Nat) (hb : b ≤ 31) :
    trailingZeros32 (2 ^ b) = b := by
  have hpos : 0 < 2 ^ b := Nat.pos_pow_of_pos _ (by norm_num)
  have hlt : 2 ^ b < 2 ^ 32 :=
    lt_of_le_of_lt (Nat.pow_le_pow_right (by norm_num) hb) (by norm_num)
  obtain ⟨hodd, hre⟩ := tzAux_spec 32 (2 ^ b) hpos hlt
  set tz := tzAux 32 (2 ^ b) with htz
  have hd_pos : 0 < 2 ^ b >>> tz := by
    rcases Nat.eq_zero_or_pos (2 ^ b >>> tz) with h0 | h0
    · rw [h0, Nat.mul_zero] at hre; omega
    · exact h0
  have htz_le : tz ≤ b := by
    by_contra hc
    push_neg at hc
    have h1 : 2 ^ b < 2 ^ tz := Nat.pow_lt_pow_right (by norm_num) hc
    have h2 : 2 ^ tz ≤ 2 ^ tz * (2 ^ b >>> tz) := Nat.le_mul_of_pos_right _ hd_pos
    omega
  have hd_eq : 2 ^ b >>> tz = 2 ^ (b - tz) := by
    have h1 : 2 ^ tz * (2 ^ b >>> tz) = 2 ^ tz * 2 ^ (b - tz) := by
      rw [hre, ← pow_add]
      congr 1
      omega
    exact Nat.eq_of_mul_eq_mul_left (Nat.pos_pow_of_pos _ (by norm_num)) h1
  have hbz : b - tz = 0 := by
    by_contra hc
    have h1 : 2 ^ (b - tz) % 2 = 0 := by
      cases hbt : b - tz with
      | zero => exact absurd hbt hc
      | succ n => rw [pow_succ, Nat.mul_mod_left]
    rw [hd_eq, h1] at hodd
    omega
  show tz = b
  omega

/-- Each emitted digit is masked below `2^bits`. -/
theorem decomposeLoop_digits (bits : Nat) :
    ∀ (fuel temp : Nat), ∀ d ∈ decomposeLoop fuel temp bits (2 ^ bits - 1),
      d < 2 ^ bits := by
  intro fuel
  induction fuel with
  | zero => intro temp d hd; exact absurd hd (by simp [decomposeLoop])
  | succ fuel ih =>
    intro temp d hd
    rw [decomposeLoop] at hd
    split at hd
    · exact absurd hd (by simp)
    · rcases List.mem_cons.mp hd with h | h
      · subst h
        rw [Nat.and_pow_two_sub_one_eq_mod]
        exact Nat.mod_lt _ (Nat.pos_pow_of_pos _ (by norm_num))
      · exact ih _ d h

/-- The digit loop is exact: recomposing its digits gives back the input. -/
theorem decomposeLoop_compose (bits : Nat) (hb : 1 ≤ bits) :
    ∀ (fuel temp : Nat), temp < 2 ^ fuel →
      compose (2 ^ bits) (decomposeLoop fuel temp bits (2 ^ bits - 1)) = temp := by
  intro fuel
  induction fuel with
  | zero => intro temp h; interval_cases temp; rfl
  | succ fuel ih =>
    intro temp h
    rw [decomposeLoop]
    split
    · next h0 => rw [h0]; rfl
    · next h0 =>
      show (temp &&& (2 ^ bits - 1)) + 2 ^ bits *
        compose (2 ^ bits) (decomposeLoop fuel (temp >>> bits) bits (2 ^ bits - 1))
        = temp
      have hsh : temp >>> bits = temp / 2 ^ bits := Nat.shiftRight_eq_div_pow _ _
      have hlt : temp / 2 ^ bits < 2 ^ fuel := by
        rcases Nat.lt_or_ge (temp / 2 ^ bits) (2 ^ fuel) with hc | hc
        · exact hc
        · exfalso
          have h1 : 2 ^ fuel * 2 ^ bits ≤ temp / 2 ^ bits * 2 ^ bits :=
            Nat.mul_le_mul_right _ hc
          have h2 : temp / 2 ^ bits * 2 ^ bits ≤ temp := Nat.div_mul_le_self _ _
          have h3 : 2 ^ (fuel + 1) ≤ 2 ^ fuel * 2 ^ bits := by
            rw [pow_succ]
            refine Nat.mul_le_mul (le_refl _) ?_
            calc (2:Nat) = 2 ^ 1 := rfl
              _ ≤ 2 ^ bits := Nat.pow_le_pow_right (by norm_num) hb
          omega
      rw [hsh, ih _ hlt, Nat.and_pow_two_sub_one_eq_mod]
      exact Nat.mod_add_div temp (2 ^ bits)

/-- The digit loop emits at most `n` digits for inputs below `2^(bits·n)`. -/
theorem decomposeLoop_length (bits : Nat) (hb : 1 ≤ bits) :
    ∀ (fuel temp n : Nat), temp < 2 ^ (bits * n) →
      (decomposeLoop fuel temp bits (2 ^ bits - 1)).length ≤ n := by
  intro fuel
  induction fuel with
  | zero => intro temp n _; simp [decomposeLoop]
  | succ fuel ih =>
    intro temp n h
    rw [decomposeLoop]
    split
    · simp
    · next h0 =>
      cases n with
      | zero =>
        rw [Nat.mul_zero, pow_zero] at h
        omega
      | succ n =>
        show (_ :: _).length ≤ n + 1
        rw [List.length_cons]
        have hsh : temp >>> bits = temp / 2 ^ bits := Nat.shiftRight_eq_div_pow _ _
        have hlt : temp / 2 ^ bits < 2 ^ (bits * n) := by
          rw [Nat.div_lt_iff_lt_mul (Nat.pos_pow_of_pos _ (by norm_num))]
          calc temp < 2 ^ (bits * (n + 1)) := h
            _ = 2 ^ (bits * n) * 2 ^ bits := by rw [← pow_add, Nat.mul_succ]
        rw [hsh]
        exact Nat.succ_le_succ (ih _ n hlt)

/-- Padding with zeros does not change the recomposed value. -/
theorem compose_append_zeros (basis : Nat) (l : List Nat) (k : Nat) :
    compose basis (l ++ List.replicate k 0) = compose basis l := by
  induction l with
  | nil =>
    show compose basis (List.replicate k 0) = 0
    induction k with
    | zero => rfl
    | succ k ihk =>
      show 0 + basis * compose basis (List.replicate k 0) = 0
      rw [ihk, Nat.mul_zero]
  | cons x xs ih =>
    show x + basis * compose basis (xs ++ List.replicate k 0)
      = x + basis * compose basis xs
    rw [ih]

/-- The bit count of `P` is 27. -/
theorem P_bit_count : barrettP.bit_count = 27 := by decide

/-- **C6.** For every field element `a` and power-of-two basis `2^b`
(`1 ≤ b ≤ 31`), `decompose` returns exactly
`decompose_len = ceil(bit_count(P)/b)` digits, each below the basis, and
the recomposition `Σ digit_i · basis^i` equals `a`. -/
theorem claim6_decompose (a b : Nat) (ha : a < P) (hb1 : 1 ≤ b)
    (hb : b ≤ 31) :
    decomposeLen (2 ^ b) = div_ceil 27 b ∧
    (decompose a (2 ^ b)).length = decomposeLen (2 ^ b) ∧
    (∀ d ∈ decompose a (2 ^ b), d < 2 ^ b) ∧
    compose (2 ^ b) (decompose a (2 ^ b)) = a := by
  have htz := trailingZeros32_two_pow b hb
  have hlen_eq : decomposeLen (2 ^ b) = div_ceil 27 b := by
    rw [decomposeLen, htz, P_bit_count]
  have hmask := mask_eq b hb1 (by omega)
  have hlen_ge : 27 ≤ b * div_ceil 27 b := by
    rw [div_ceil]
    by_cases hr : 0 < 27 % b
    · rw [if_pos hr]
      have := Nat.div_add_mod 27 b
      have hmod : 27 % b < b := Nat.mod_lt _ (by omega)
      calc 27 = b * (27 / b) + 27 % b := (Nat.div_add_mod 27 b).symm
        _ ≤ b * (27 / b) + b := by omega
        _ = b * (27 / b + 1) := by ring
    · rw [if_neg hr]
      have := Nat.div_add_mod 27 b
      omega
  have ha27 : a < 2 ^ (b * div_ceil 27 b) := by
    have h1 : a < 2 ^ 27 := by
      have : (P:Nat) < 2 ^ 27 := by norm_num [P]
      omega
    exact lt_of_lt_of_le h1 (Nat.pow_le_pow_right (by norm_num) hlen_ge)
  have ha32 : a < 2 ^ 32 := by
    have : (P:Nat) < 2 ^ 32 := by norm_num [P]
    omega
  have hlistlen := decomposeLoop_length b hb1 32 a (div_ceil 27 b) ha27
  have hloop_len_le : (decomposeLoop 32 a b (2 ^ b - 1)).length ≤ div_ceil 27 b :=
    hlistlen
  have hdec_unfold : decompose a (2 ^ b)
      = resize (decomposeLoop 32 a b (2 ^ b - 1)) (div_ceil 27 b) := by
    rw [decompose, htz, hmask, hlen_eq]
  refine ⟨hlen_eq, ?_, ?_, ?_⟩
  · rw [hdec_unfold, hlen_eq, resize, List.length_append,
      List.length_take, List.length_replicate]
    omega
  · intro d hd
    rw [hdec_unfold, resize] at hd
    rcases List.mem_append.mp hd with h | h
    · exact decomposeLoop_digits b 32 a d (List.mem_of_mem_take h)
    · have : d = 0 := List.eq_of_mem_replicate h
      subst this
      exact Nat.pos_pow_of_pos _ (by norm_num)
  · rw [hdec_unfold, resize, List.take_of_length_le hloop_len_le,
      compose_append_zeros]
    exact decomposeLoop_compose b hb1 32 a ha32

/-- Witness for C6: `a = 123456`, basis `4`. -/
theorem claim6_witness :
    (decompose 123456 (2 ^ 2)).length = decomposeLen (2 ^ 2) ∧
      compose (2 ^ 2) (decompose 123456 (2 ^ 2)) = 123456 := by
  have h := claim6_decompose 123456 2 (by norm_num [P]) (by norm_num)
    (by norm_num)
  exact ⟨h.2.1, h.2.2.2⟩

/-- **C7 (counterexample).** `Fp32::new`/`From<u32>` store the raw value
unreduced: constructing from `P` itself yields an inner representation not
in `[0, P)`. -/
theorem claim7_counterexample :
    Fp32.new P = P ∧ ¬ Fp32.new P < P := by
  exact ⟨rfl, by norm_num [Fp32.new]⟩

/-- **C7 (amended).** The arithmetic operations return canonical
representatives in `[0, P)`, but raw construction via `new`/`from` returns
its argument unchanged, so construction is canonical only for arguments
already below `P`. -/
theorem claim7_amended_canonical (a b v : Nat) (ha : a < P) (hb : b < P) :
    Fp32.new v = v ∧
    addP a b < P ∧ subP a b < P ∧ negP a < P ∧
    mulBar a b barrettP < P ∧ powP a b < P ∧ invP a < P := by
  have hP0 : 0 < P := by norm_num [P]
  have haB : a < B32 := lt_trans ha P_lt_B32
  have hbB : b < B32 := lt_trans hb P_lt_B32
  refine ⟨rfl, Nat.mod_lt _ hP0, Nat.mod_lt _ hP0, Nat.mod_lt _ hP0, ?_, ?_, ?_⟩
  · rw [mulBar_eq a b haB hbB]
    exact Nat.mod_lt _ hP0
  · rw [powP_eq a b haB (lt_trans hb (by norm_num [P]))]
    exact Nat.mod_lt _ hP0
  · rw [invP, powP_eq a (P - 2) haB (by norm_num [P])]
    exact Nat.mod_lt _ hP0

/-- Witness for C7's amended theorem at concrete inputs. -/
theorem claim7_witness :
    addP 5 7 < P ∧ mulBar 5 7 barrettP < P :=
  ⟨(claim7_amended_canonical 5 7 9 (by norm_num [P]) (by norm_num [P])).2.1,
    (claim7_amended_canonical 5 7 9 (by norm_num [P])
      (by norm_num [P])).2.2.2.2.1⟩

/-! ## NTT table generation -/

/-- Modelled from the spec (§3, Root/Twiddle pair; the `MulFactor` struct is
not under `src/`): a field element bundled with its precomputed quotient. -/
structure MulFactor where
  value : Nat
  quotient : Nat
deriving DecidableEq

/-- `Fp32::to_root`: the element with quotient `⌊value·2^32 / P⌋` (computed
in `u64`, cast back to `u32`). -/
def toRoot (x : Nat) : MulFactor := ⟨x, (x <<< 32) / P % B32⟩

/-- `Fp32::mul_root_assign`: multiply by a root through its
`MulModuloFactor`. -/
def mulRootAssign (x : Nat) (r : MulFactor) : Nat :=
  mulReduceFactor x ⟨r.value, r.quotient⟩ P

/-- Modelled from the spec: `ReverseLsbs` (not under `src/`) reverses the
low `k` bits of an index (§3's bit-reversal permutation). -/
def reverseLsbs : Nat → Nat → Nat
  | _, 0 => 0
  | x, k + 1 => x % 2 * 2 ^ k + reverseLsbs (x / 2) k

/-- Modelled from the spec: `Ring::square` (not under `src/`) is
multiplication by itself. -/
def squareP (x : Nat) : Nat := mulBar x x barrettP

/-- The `for _ in 0..degree` minimum-tracking walk of
`try_minimal_primitive_root`. -/
def minLoop : Nat → Nat → Nat → Nat → Nat
  | 0, _, _, rootmin => rootmin
  | cnt + 1, gsq, current, rootmin =>
    let rootmin' := if current < rootmin then current else rootmin
    minLoop cnt gsq (mulBar current gsq barrettP) rootmin'

/-- `try_minimal_primitive_root`. -/
def tryMinimalPrimitiveRoot (degree : Nat) (samples : Nat → Nat) :
    Option Nat :=
  match tryPrimitiveRoot degree samples with
  | none => none
  | some root => some (minLoop degree (squareP root) root root)

/-- Modelled from the spec (§3): the `NTTTable` record (the struct itself is
not under `src/`; `generate_ntt_table` below, which fills it, is). -/
structure NTTTableRep where
  root : Nat
  inv_root : Nat
  log_n : Nat
  n : Nat
  inv_degree : MulFactor
  root_powers : List MulFactor
  inv_root_powers : List MulFactor
deriving DecidableEq

/-- The `for i in 1..n` table-filling loop shared by the forward and inverse
passes of `generate_ntt_table`: write `power.to_root()` at `idx i`, then
step `power` by the root factor.  `cnt` counts remaining iterations. -/
def fillLoop (rootF : MulFactor) (idx : Nat → Nat) :
    Nat → Nat → Nat → List MulFactor → List MulFactor
  | 0, _, _, arr => arr
  | cnt + 1, i, power, arr =>
    fillLoop rootF idx cnt (i + 1) (mulRootAssign power rootF)
      (arr.set (idx i) (toRoot power))

/-- `Fp32::generate_ntt_table`. -/
def generateNTTTable (log_n : Nat) (samples : Nat → Nat) :
    Option NTTTableRep :=
  let n := 1 <<< log_n
  match tryMinimalPrimitiveRoot (n * 2) samples with
  | none => none
  | some root =>
    let inv_root := invP root
    let root_factor := toRoot root
    let root_powers := fillLoop root_factor (fun i => reverseLsbs i log_n)
      (n - 1) 1 root ((List.replicate n ⟨0, 0⟩).set 0 (toRoot 1))
    let inv_root_factor := toRoot inv_root
    let inv_root_powers := fillLoop inv_root_factor
      (fun i => reverseLsbs (i - 1) log_n + 1)
      (n - 1) 1 inv_root ((List.replicate n ⟨0, 0⟩).set 0 (toRoot 1))
    let inv_degree := toRoot (invP n)
    some ⟨root, inv_root, log_n, n, inv_degree, root_powers, inv_root_powers⟩

/-! ### Bit-reversal facts -/

theorem reverseLsbs_lt : ∀ (k x : Nat), reverseLsbs x k < 2 ^ k := by
  intro k
  induction k with
  | zero => intro x; simp [reverseLsbs]
  | succ k ih =>
    intro x
    show x % 2 * 2 ^ k + reverseLsbs (x / 2) k < 2 ^ (k + 1)
    have h1 := ih (x / 2)
    have h2 : x % 2 ≤ 1 := by omega
    have h3 : x % 2 * 2 ^ k ≤ 2 ^ k := by
      calc x % 2 * 2 ^ k ≤ 1 * 2 ^ k := Nat.mul_le_mul_right _ h2
        _ = 2 ^ k := Nat.one_mul _
    have h4 : (2:Nat) ^ (k + 1) = 2 ^ k + 2 ^ k := by
      rw [pow_succ]; ring
    omega

theorem reverseLsbs_zero : ∀ k, reverseLsbs 0 k = 0 := by
  intro k
  induction k with
  | zero => rfl
  | succ k ih =>
    show 0 % 2 * 2 ^ k + reverseLsbs (0 / 2) k = 0
    simpa using ih

/-- Peeling the top bit off a reversal. -/
theorem reverseLsbs_top : ∀ (k b r : Nat), r < 2 ^ k → b ≤ 1 →
    reverseLsbs (b * 2 ^ k + r) (k + 1) = 2 * reverseLsbs r k + b := by
  intro k
  induction k with
  | zero =>
    intro b r hr hb
    interval_cases r
    show (b * 1 + 0) % 2 * 2 ^ 0 + reverseLsbs ((b * 1 + 0) / 2) 0 = 2 * 0 + b
    simp [reverseLsbs]
    omega
  | succ k ih =>
    intro b r hr hb
    show (b * 2 ^ (k + 1) + r) % 2 * 2 ^ (k + 1)
        + reverseLsbs ((b * 2 ^ (k + 1) + r) / 2) (k + 1)
      = 2 * reverseLsbs r (k + 1) + b
    have hm : (b * 2 ^ (k + 1) + r) % 2 = r % 2 := by
      have : b * 2 ^ (k + 1) % 2 = 0 := by
        rw [pow_succ, ← Nat.mul_assoc, Nat.mul_mod_left]
      omega
    have hd : (b * 2 ^ (k + 1) + r) / 2 = b * 2 ^ k + r / 2 := by
      rw [pow_succ, ← Nat.mul_assoc]
      omega
    have hr2 : r / 2 < 2 ^ k := by
      rw [Nat.div_lt_iff_lt_mul (by norm_num)]
      calc r < 2 ^ (k + 1) := hr
        _ = 2 ^ k * 2 := pow_succ 2 k
    rw [hm, hd, ih b (r / 2) hr2 hb]
    show r % 2 * 2 ^ (k + 1) + (2 * reverseLsbs (r / 2) k + b)
      = 2 * (r % 2 * 2 ^ k + reverseLsbs (r / 2) k) + b
    rw [pow_succ]
    ring

/-- Bit reversal is an involution modulo `2^k`. -/
theorem reverseLsbs_involutive : ∀ (k x : Nat),
    reverseLsbs (reverseLsbs x k) k = x % 2 ^ k := by
  intro k
  induction k with
  | zero => intro x; simp [reverseLsbs, Nat.mod_one]
  | succ k ih =>
    intro x
    show reverseLsbs (x % 2 * 2 ^ k + reverseLsbs (x / 2) k) (k + 1) = _
    rw [reverseLsbs_top k (x % 2) (reverseLsbs (x / 2) k)
      (reverseLsbs_lt k (x / 2)) (by omega)]
    rw [ih (x / 2)]
    have : x % 2 ^ (k + 1) = 2 * (x / 2 % 2 ^ k) + x % 2 := by
      rw [pow_succ', Nat.mod_mul]
      omega
    omega

/-- Bit reversal is injective below `2^k`. -/
theorem reverseLsbs_inj (k a b : Nat) (ha : a < 2 ^ k) (hb : b < 2 ^ k)
    (h : reverseLsbs a k = reverseLsbs b k) : a = b := by
  have h1 := reverseLsbs_involutive k a
  have h2 := reverseLsbs_involutive k b
  rw [h] at h1
  rw [Nat.mod_eq_of_lt ha] at h1
  rw [Nat.mod_eq_of_lt hb] at h2
  omega

/-- The all-ones index is a fixed point of bit reversal. -/
theorem reverseLsbs_all_ones : ∀ k, reverseLsbs (2 ^ k - 1) k = 2 ^ k - 1 := by
  intro k
  induction k with
  | zero => rfl
  | succ k ih =>
    have h1 : 2 ^ (k + 1) - 1 = 1 * 2 ^ k + (2 ^ k - 1) := by
      have : (1:Nat) ≤ 2 ^ k := Nat.one_le_two_pow
      rw [pow_succ]
      omega
    rw [h1, reverseLsbs_top k 1 (2 ^ k - 1)
      (by have : (1:Nat) ≤ 2 ^ k := Nat.one_le_two_pow; omega) (le_refl 1), ih]
    have : (1:Nat) ≤ 2 ^ k := Nat.one_le_two_pow
    omega

/-! ### Root multiplication facts -/

/-- For a reduced operand, `to_root` stores exactly `⌊w·2^32 / P⌋`. -/
theorem toRoot_quotient (w : Nat) (hw : w < P) :
    toRoot w = ⟨w, w * B32 / P⟩ := by
  have hsh : w <<< 32 = w * B32 := by
    rw [Nat.shiftLeft_eq]
    congr 1
  have hlt : w * B32 / P < B32 := by
    rw [Nat.div_lt_iff_lt_mul (by norm_num [P])]
    calc w * B32 < P * B32 := (Nat.mul_lt_mul_right (by norm_num [B32])).mpr hw
      _ = B32 * P := Nat.mul_comm _ _
  simp only [toRoot, hsh, Nat.mod_eq_of_lt hlt]

/-- Multiplying by a reduced root through its factor is multiplication
mod `P`. -/
theorem mulRootAssign_eq (x w : Nat) (hw : w < P) (hx : x < B32) :
    mulRootAssign x (toRoot w) = x * w % P := by
  have hp0 : (0:Nat) < P := by norm_num [P]
  obtain ⟨hle, hlb⟩ := factor_bounds P w x hp0 hw hx
  rw [mulRootAssign, toRoot_quotient w hw]
  simp only [mulReduceFactor, widenMulHigh]
  exact final_steps (x * w) (wmul32 x w) P
    (w * B32 / P * x / B32) (x * (w * B32 / P) / B32)
    (Nat.mod_mod_of_dvd _ dvd_rfl)
    (by rw [Nat.mul_comm x (w * B32 / P)]) hle hlb
    (by norm_num [P, B32]) hp0

/-- The running power of the fill loops: `k` successive root
multiplications. -/
def powerIter (rootF : MulFactor) : Nat → Nat → Nat
  | 0, p => p
  | k + 1, p => powerIter rootF k (mulRootAssign p rootF)

theorem powerIter_eq (w : Nat) (hw : w < P) :
    ∀ (k p : Nat), p < P → powerIter (toRoot w) k p = p * w ^ k % P := by
  intro k
  induction k with
  | zero =>
    intro p hp
    show p = p * w ^ 0 % P
    rw [pow_zero, Nat.mul_one, Nat.mod_eq_of_lt hp]
  | succ k ih =>
    intro p hp
    show powerIter (toRoot w) k (mulRootAssign p (toRoot w)) = _
    have hxB : p < B32 := lt_trans hp P_lt_B32
    rw [mulRootAssign_eq p w hw hxB]
    rw [ih (p * w % P) (Nat.mod_lt _ (by norm_num [P]))]
    rw [Nat.mod_mul_mod, pow_succ]
    congr 1
    ring

/-! ### Fill-loop facts -/

theorem fillLoop_length (rootF : MulFactor) (idx : Nat → Nat) :
    ∀ (cnt i power : Nat) (arr : List MulFactor),
      (fillLoop rootF idx cnt i power arr).length = arr.length := by
  intro cnt
  induction cnt with
  | zero => intro i power arr; rfl
  | succ cnt ih =>
    intro i power arr
    show (fillLoop rootF idx cnt (i + 1) (mulRootAssign power rootF)
      (arr.set (idx i) (toRoot power))).length = arr.length
    rw [ih, List.length_set]

/-- Slots no iteration targets are left alone. -/
theorem fillLoop_get_untouched (rootF : MulFactor) (idx : Nat → Nat) :
    ∀ (cnt i power : Nat) (arr : List MulFactor) (j : Nat),
      (∀ t, i ≤ t → t < i + cnt → idx t ≠ j) →
      (fillLoop rootF idx cnt i power arr)[j]? = arr[j]? := by
  intro cnt
  induction cnt with
  | zero => intro i power arr j _; rfl
  | succ cnt ih =>
    intro i power arr j hmiss
    show (fillLoop rootF idx cnt (i + 1) (mulRootAssign power rootF)
      (arr.set (idx i) (toRoot power)))[j]? = arr[j]?
    rw [ih (i + 1) _ _ j (fun t h1 h2 => hmiss t (by omega) (by omega))]
    exact List.getElem?_set_ne (hmiss i (le_refl i) (by omega))

/-- The slot targeted by iteration `t` (and by no later iteration) ends up
holding the running power after `t - i` steps, in twiddle form. -/
theorem fillLoop_get_written (rootF : MulFactor) (idx : Nat → Nat) :
    ∀ (cnt i power : Nat) (arr : List MulFactor) (t : Nat),
      i ≤ t → t < i + cnt → idx t < arr.length →
      (∀ s, t < s → s < i + cnt → idx s ≠ idx t) →
      (fillLoop rootF idx cnt i power arr)[idx t]?
        = some (toRoot (powerIter rootF (t - i) power)) := by
  intro cnt
  induction cnt with
  | zero => intro i power arr t h1 h2; omega
  | succ cnt ih =>
    intro i power arr t h1 h2 hlen hlater
    show (fillLoop rootF idx cnt (i + 1) (mulRootAssign power rootF)
      (arr.set (idx i) (toRoot power)))[idx t]? = _
    rcases Nat.eq_or_lt_of_le h1 with heq | hlt
    · subst heq
      rw [fillLoop_get_untouched rootF idx cnt (i + 1) _ _ (idx i)
        (fun s hs1 hs2 => hlater s (by omega) (by omega))]
      rw [List.getElem?_set_self hlen, Nat.sub_self]
      rfl
    · have hrec := ih (i + 1) (mulRootAssign power rootF)
        (arr.set (idx i) (toRoot power)) t hlt (by omega)
        (by rw [List.length_set]; exact hlen)
        (fun s hs1 hs2 => hlater s (by omega) (by omega))
      rw [hrec]
      have hstep : t - i = t - (i + 1) + 1 := by omega
      rw [hstep]
      rfl

/-! ### Bounds through the minimal-root search -/

theorem minLoop_lt :
    ∀ (cnt gsq current rootmin : Nat), gsq < B32 → current < P →
      rootmin < P → minLoop cnt gsq current rootmin < P := by
  intro cnt
  induction cnt with
  | zero => intro gsq current rootmin _ _ h; exact h
  | succ cnt ih =>
    intro gsq current rootmin hg hc hm
    show minLoop cnt gsq (mulBar current gsq barrettP)
      (if current < rootmin then current else rootmin) < P
    have hcB : current < B32 := lt_trans hc P_lt_B32
    have hmul : mulBar current gsq barrettP < P := by
      rw [mulBar_eq current gsq hcB hg]
      exact Nat.mod_lt _ (by norm_num [P])
    exact ih gsq _ _ hg hmul (by split <;> assumption)

/-- A root found by `try_primitive_root` is a reduced field element. -/
theorem tryPrimitiveRoot_lt (degree : Nat) (samples : Nat → Nat)
    (hs : ∀ i, samples i < 2 ^ 32) (w : Nat)
    (h : tryPrimitiveRoot degree samples = some w) : w < P := by
  simp only [tryPrimitiveRoot] at h
  split at h
  · exact absurd h (by simp)
  · obtain ⟨-, j, hj⟩ := searchRoot_some samples _ degree 100 0 w h
    have hq : (P - 1) / degree < 2 ^ 32 := by
      have := Nat.div_le_self (P - 1) degree
      norm_num [P] at this ⊢
      omega
    rw [hj, powP_eq (samples j) _ (by simpa [B32] using hs j) hq]
    exact Nat.mod_lt _ (by norm_num [P])

/-- A root found by `try_minimal_primitive_root` is a reduced field
element. -/
theorem tryMinimalPrimitiveRoot_lt (degree : Nat) (samples : Nat → Nat)
    (hs : ∀ i, samples i < 2 ^ 32) (r : Nat)
    (h : tryMinimalPrimitiveRoot degree samples = some r) : r < P := by
  simp only [tryMinimalPrimitiveRoot] at h
  rcases htp : tryPrimitiveRoot degree samples with - | root
  · rw [htp] at h; exact absurd h (by simp)
  · rw [htp] at h
    injection h with h'
    subst h'
    have hroot := tryPrimitiveRoot_lt degree samples hs root htp
    have hrB : root < B32 := lt_trans hroot P_lt_B32
    have hsq : squareP root < B32 := by
      rw [squareP, mulBar_eq root root hrB hrB]
      exact lt_trans (Nat.mod_lt _ (by norm_num [P])) P_lt_B32
    exact minLoop_lt degree _ root root hsq hroot hroot

/-- **C3.** Whenever `generate_ntt_table(log_n)` succeeds (for any sample
oracle of 32-bit values), the returned table has `n = 2^log_n`, both power
tables of length `n`, slot `0` of each equal to the identity in twiddle
form, `root_powers[i] = root^(reverse_lsbs(i, log_n))` in twiddle form for
every `i < n`, and `inv_root_powers[(i-1).reverse_lsbs(log_n) + 1] =
inv_root^i` in twiddle form for every `1 ≤ i < n`. -/
theorem claim3_ntt_table (log_n : Nat) (samples : Nat → Nat)
    (hs : ∀ i, samples i < 2 ^ 32) (t : NTTTableRep)
    (h : generateNTTTable log_n samples = some t) :
    t.n = 2 ^ log_n ∧
      t.root_powers.length = t.n ∧
      t.inv_root_powers.length = t.n ∧
      t.root_powers[0]? = some (toRoot 1) ∧
      t.inv_root_powers[0]? = some (toRoot 1) ∧
      (∀ i, i < t.n →
        t.root_powers[i]?
          = some (toRoot (t.root ^ reverseLsbs i log_n % P))) ∧
      (∀ i, 1 ≤ i → i < t.n →
        t.inv_root_powers[reverseLsbs (i - 1) log_n + 1]?
          = some (toRoot (t.inv_root ^ i % P))) := by
  simp only [generateNTTTable] at h
  rcases htm : tryMinimalPrimitiveRoot (1 <<< log_n * 2) samples with - | root
  · rw [htm] at h; exact absurd h (by simp)
  rw [htm] at h
  injection h with h'
  subst h'
  have hn : 1 <<< log_n = 2 ^ log_n := by
    rw [Nat.shiftLeft_eq, Nat.one_mul]
  have hn1 : (1:Nat) ≤ 2 ^ log_n := Nat.one_le_two_pow
  have hroot : root < P :=
    tryMinimalPrimitiveRoot_lt _ samples hs root htm
  have hrB : root < B32 := lt_trans hroot P_lt_B32
  have hinv : invP root < P := by
    rw [invP, powP_eq root _ hrB (by norm_num [P])]
    exact Nat.mod_lt _ (by norm_num [P])
  have hinvB : invP root < B32 := lt_trans hinv P_lt_B32
  have hlen0 : ((List.replicate (1 <<< log_n) (⟨0, 0⟩ : MulFactor)).set 0
      (toRoot 1)).length = 2 ^ log_n := by
    rw [List.length_set, List.length_replicate, hn]
  refine ⟨hn, ?_, ?_, ?_, ?_, ?_, ?_⟩
  · show (fillLoop _ _ _ _ _ _).length = 1 <<< log_n
    rw [fillLoop_length, hlen0, hn]
  · show (fillLoop _ _ _ _ _ _).length = 1 <<< log_n
    rw [fillLoop_length, hlen0, hn]
  · show (fillLoop _ (fun i => reverseLsbs i log_n) _ _ _ _)[0]? = _
    rw [fillLoop_get_untouched _ _ _ _ _ _ 0 (by
      intro s hs1 hs2 hzero
      have : s = 0 := by
        refine reverseLsbs_inj log_n s 0 ?_ (by positivity) ?_
        · omega
        · rw [hzero, reverseLsbs_zero]
      omega)]
    rw [List.getElem?_set_self (by rw [List.length_replicate]; omega)]
  · show (fillLoop _ (fun i => reverseLsbs (i - 1) log_n + 1) _ _ _ _)[0]?
      = _
    rw [fillLoop_get_untouched _ _ _ _ _ _ 0 (by intro s _ _; omega)]
    rw [List.getElem?_set_self (by rw [List.length_replicate]; omega)]
  · intro i hi
    have hi' : i < 1 <<< log_n := hi
    rw [hn] at hi'
    show (fillLoop (toRoot root) (fun j => reverseLsbs j log_n)
        (1 <<< log_n - 1) 1 root
        ((List.replicate (1 <<< log_n) (⟨0, 0⟩ : MulFactor)).set 0
          (toRoot 1)))[i]? = some (toRoot (root ^ reverseLsbs i log_n % P))
    rcases Nat.eq_zero_or_pos i with hi0 | hipos
    · subst hi0
      rw [fillLoop_get_untouched _ _ _ _ _ _ 0 (by
        intro s hs1 hs2 hzero
        have : s = 0 := by
          refine reverseLsbs_inj log_n s 0 ?_ (by positivity) ?_
          · omega
          · rw [hzero, reverseLsbs_zero]
        omega)]
      rw [List.getElem?_set_self (by rw [List.length_replicate]; omega)]
      rw [reverseLsbs_zero, pow_zero, Nat.mod_eq_of_lt (by norm_num [P])]
    · have hrevlt : reverseLsbs i log_n < 2 ^ log_n := reverseLsbs_lt _ _
      have hrevpos : 1 ≤ reverseLsbs i log_n := by
        rcases Nat.eq_zero_or_pos (reverseLsbs i log_n) with h0 | h1
        · exfalso
          have : i = 0 := by
            refine reverseLsbs_inj log_n i 0 hi' (by positivity) ?_
            rw [h0, reverseLsbs_zero]
          omega
        · exact h1
      have hinvol : reverseLsbs (reverseLsbs i log_n) log_n = i := by
        rw [reverseLsbs_involutive, Nat.mod_eq_of_lt hi']
      have hw : (fillLoop (toRoot root) (fun j => reverseLsbs j log_n)
          (1 <<< log_n - 1) 1 root
          ((List.replicate (1 <<< log_n) (⟨0, 0⟩ : MulFactor)).set 0
            (toRoot 1)))[reverseLsbs (reverseLsbs i log_n) log_n]?
          = some (toRoot (powerIter (toRoot root)
              (reverseLsbs i log_n - 1) root)) :=
        fillLoop_get_written (toRoot root) (fun j => reverseLsbs j log_n)
          (1 <<< log_n - 1) 1 root
          ((List.replicate (1 <<< log_n) ⟨0, 0⟩).set 0 (toRoot 1))
          (reverseLsbs i log_n) hrevpos (by omega)
          (by
            show reverseLsbs (reverseLsbs i log_n) log_n < _
            rw [hlen0, hinvol]
            exact hi')
          (by
            intro s hs1 hs2 hne
            have hslt : s < 2 ^ log_n := by omega
            have := reverseLsbs_inj log_n s (reverseLsbs i log_n) hslt
              hrevlt hne
            omega)
      rw [hinvol] at hw
      rw [hw]
      rw [powerIter_eq root hroot (reverseLsbs i log_n - 1) root hroot]
      have hsplit : root ^ reverseLsbs i log_n
          = root * root ^ (reverseLsbs i log_n - 1) := by
        conv_lhs => rw [show reverseLsbs i log_n
          = reverseLsbs i log_n - 1 + 1 by omega]
        rw [pow_succ]
        ring
      rw [hsplit]
  · intro i hi1 hi2
    have hi' : i < 1 <<< log_n := hi2
    rw [hn] at hi'
    show (fillLoop (toRoot (invP root))
        (fun j => reverseLsbs (j - 1) log_n + 1) (1 <<< log_n - 1) 1
        (invP root)
        ((List.replicate (1 <<< log_n) (⟨0, 0⟩ : MulFactor)).set 0
          (toRoot 1)))[reverseLsbs (i - 1) log_n + 1]?
      = some (toRoot (invP root ^ i % P))
    have hrevlt : reverseLsbs (i - 1) log_n < 2 ^ log_n := reverseLsbs_lt _ _
    have hrevne : reverseLsbs (i - 1) log_n ≠ 2 ^ log_n - 1 := by
      intro heq
      have : i - 1 = 2 ^ log_n - 1 := by
        refine reverseLsbs_inj log_n (i - 1) (2 ^ log_n - 1)
          (by omega) (by omega) ?_
        rw [heq, reverseLsbs_all_ones]
      omega
    have hw : (fillLoop (toRoot (invP root))
        (fun j => reverseLsbs (j - 1) log_n + 1) (1 <<< log_n - 1) 1
        (invP root)
        ((List.replicate (1 <<< log_n) (⟨0, 0⟩ : MulFactor)).set 0
          (toRoot 1)))[reverseLsbs (i - 1) log_n + 1]?
        = some (toRoot (powerIter (toRoot (invP root)) (i - 1)
            (invP root))) :=
      fillLoop_get_written (toRoot (invP root))
        (fun j => reverseLsbs (j - 1) log_n + 1) (1 <<< log_n - 1) 1
        (invP root)
        ((List.replicate (1 <<< log_n) ⟨0, 0⟩).set 0 (toRoot 1))
        i hi1 (by omega)
        (by
          show reverseLsbs (i - 1) log_n + 1 < _
          rw [hlen0]
          omega)
        (by
          intro s hs1 hs2 hne
          have hne' : reverseLsbs (s - 1) log_n + 1
              = reverseLsbs (i - 1) log_n + 1 := hne
          have h1 : s - 1 < 2 ^ log_n := by omega
          have h2 : i - 1 < 2 ^ log_n := by omega
          have := reverseLsbs_inj log_n (s - 1) (i - 1) h1 h2 (by omega)
          omega)
    rw [hw]
    rw [powerIter_eq (invP root) hinv (i - 1) (invP root) hinv]
    have hsplit : invP root ^ i = invP root * invP root ^ (i - 1) := by
      conv_lhs => rw [show i = i - 1 + 1 by omega]
      rw [pow_succ]
      ring
    rw [hsplit]

set_option maxRecDepth 1000000 in
/-- Witness for C3: `log_n = 1` with the constant sample `5` generates the
table for `n = 2`, and its slot `1` holds `root^(reverse_lsbs(1,1))` in
twiddle form. -/
theorem claim3_witness :
    generateNTTTable 1 (fun _ => 5)
        = some ⟨2080767, 130039810, 1, 2, ⟨66060289, 2147483664⟩,
            [⟨1, 32⟩, ⟨2080767, 67641441⟩],
            [⟨1, 32⟩, ⟨130039810, 4227325854⟩]⟩ ∧
      ([(⟨1, 32⟩ : MulFactor), ⟨2080767, 67641441⟩] : List MulFactor)[1]?
        = some (toRoot (2080767 ^ reverseLsbs 1 1 % P)) := by
  have h : generateNTTTable 1 (fun _ => 5)
      = some ⟨2080767, 130039810, 1, 2, ⟨66060289, 2147483664⟩,
          [⟨1, 32⟩, ⟨2080767, 67641441⟩],
          [⟨1, 32⟩, ⟨130039810, 4227325854⟩]⟩ := by decide
  refine ⟨h, ?_⟩
  exact (claim3_ntt_table 1 (fun _ => 5) (fun i => by norm_num) _ h
    ).2.2.2.2.2.1 1 (by decide)

/-! ## The NTT table cache (`NTT_TABLE` / `NTT_MUTEX`) -/

/-- Lookup in the cache map (`HashMap<u32, Arc<NTTTable>>`, modelled as an
association list; sharing an `Arc` is modelled as returning the entry
itself). -/
def lookupTable : List (Nat × NTTTableRep) → Nat → Option NTTTableRep
  | [], _ => none
  | (k, t) :: rest, l => if k = l then some t else lookupTable rest l

/-- One insertion step of `init_ntt_table`: keys already present are skipped
(the `difference` loop), missing keys get a freshly generated table. -/
def initOne (samples : Nat → Nat) (log_n : Nat)
    (tables : List (Nat × NTTTableRep)) : Option (List (Nat × NTTTableRep)) :=
  match lookupTable tables log_n with
  | some _ => some tables
  | none =>
    match generateNTTTable log_n samples with
    | none => none
    | some t => some (tables ++ [(log_n, t)])

/-- The insertion loop of `init_ntt_table` over the requested `log_ns`. -/
def initList (samples : Nat → Nat) :
    List Nat → List (Nat × NTTTableRep) → Option (List (Nat × NTTTableRep))
  | [], tables => some tables
  | l :: rest, tables =>
    match initOne samples l tables with
    | none => none
    | some tables' => initList samples rest tables'

/-- `init_ntt_table` under the mutex: an initialized cell keeps its map and
only gains entries; an uninitialized cell is set to a map built from
scratch.  The outer `Option` is the `Result`, the inner one the `OnceCell`
state. -/
def initNTTTable (samples : Nat → Nat) (log_ns : List Nat)
    (st : Option (List (Nat × NTTTableRep))) :
    Option (Option (List (Nat × NTTTableRep))) :=
  match st with
  | some tables =>
    match initList samples log_ns tables with
    | none => none
    | some tables' => some (some tables')
  | none =>
    match initList samples log_ns [] with
    | none => none
    | some tables' => some (some tables')

/-- The slow path of `get_ntt_table`: initialize for `[log_n]`, then return
the (now guaranteed) entry. -/
def getNTTTableSlow (samples : Nat → Nat) (log_n : Nat)
    (st : Option (List (Nat × NTTTableRep))) :
    Option (NTTTableRep × Option (List (Nat × NTTTableRep))) :=
  match initNTTTable samples [log_n] st with
  | none => none
  | some none => none
  | some (some tables') =>
    match lookupTable tables' log_n with
    | none => none
    | some t => some (t, some tables')

/-- `get_ntt_table`: a hit on the initialized cell returns the shared entry
without touching the state; otherwise fall through to `init_ntt_table`. -/
def getNTTTable (samples : Nat → Nat) (log_n : Nat)
    (st : Option (List (Nat × NTTTableRep))) :
    Option (NTTTableRep × Option (List (Nat × NTTTableRep))) :=
  match st with
  | some tables =>
    match lookupTable tables log_n with
    | some t => some (t, some tables)
    | none => getNTTTableSlow samples log_n st
  | none => getNTTTableSlow samples log_n st

/-- `st` is an initialized cache state whose map sends `l` to `t`. -/
def cached (st : Option (List (Nat × NTTTableRep))) (l : Nat)
    (t : NTTTableRep) : Prop :=
  ∃ tables, st = some tables ∧ lookupTable tables l = some t

/-! ### Cache lemmas -/

theorem lookupTable_append (rest : List (Nat × NTTTableRep)) :
    ∀ (tables : List (Nat × NTTTableRep)) (l : Nat) (t : NTTTableRep),
      lookupTable tables l = some t →
      lookupTable (tables ++ rest) l = some t := by
  intro tables
  induction tables with
  | nil => intro l t h; exact absurd h (by simp [lookupTable])
  | cons p ps ih =>
    intro l t h
    obtain ⟨k, u⟩ := p
    by_cases hk : k = l
    · simp only [lookupTable, List.cons_append, if_pos hk] at h ⊢
      exact h
    · simp only [lookupTable, List.cons_append, if_neg hk] at h ⊢
      exact ih l t h

theorem lookupTable_append_self (l : Nat) (t : NTTTableRep) :
    ∀ tables : List (Nat × NTTTableRep), lookupTable tables l = none →
      lookupTable (tables ++ [(l, t)]) l = some t := by
  intro tables
  induction tables with
  | nil => intro h; simp [lookupTable]
  | cons p ps ih =>
    intro h
    obtain ⟨k, u⟩ := p
    by_cases hk : k = l
    · rw [lookupTable, if_pos hk] at h
      exact absurd h (by simp)
    · rw [lookupTable, if_neg hk] at h
      rw [List.cons_append, lookupTable, if_neg hk]
      exact ih h

theorem initOne_preserves (samples : Nat → Nat) (l' : Nat)
    (tables tables' : List (Nat × NTTTableRep))
    (h : initOne samples l' tables = some tables') :
    ∀ l t, lookupTable tables l = some t →
      lookupTable tables' l = some t := by
  intro l t hl
  simp only [initOne] at h
  split at h
  · injection h with h'
    subst h'
    exact hl
  · split at h
    · exact absurd h (by simp)
    · injection h with h'
      subst h'
      exact lookupTable_append _ tables l t hl

theorem initList_preserves (samples : Nat → Nat) :
    ∀ (log_ns : List Nat) (tables tables' : List (Nat × NTTTableRep)),
      initList samples log_ns tables = some tables' →
      ∀ l t, lookupTable tables l = some t →
        lookupTable tables' l = some t := by
  intro log_ns
  induction log_ns with
  | nil =>
    intro tables tables' h l t hl
    injection h with h'
    subst h'
    exact hl
  | cons a rest ih =>
    intro tables tables' h l t hl
    simp only [initList] at h
    split at h
    · exact absurd h (by simp)
    · next tables1 hone =>
      exact ih tables1 tables' h l t
        (initOne_preserves samples a tables tables1 hone l t hl)

theorem initNTTTable_preserves (samples : Nat → Nat) (log_ns : List Nat)
    (st st' : Option (List (Nat × NTTTableRep)))
    (h : initNTTTable samples log_ns st = some st') :
    ∀ l t, cached st l t → cached st' l t := by
  rintro l t ⟨tables, hst, hl⟩
  subst hst
  simp only [initNTTTable] at h
  split at h
  · exact absurd h (by simp)
  · next tables' hlist =>
    injection h with h'
    subst h'
    exact ⟨tables', rfl,
      initList_preserves samples log_ns tables tables' hlist l t hl⟩

theorem getNTTTableSlow_spec (samples : Nat → Nat) (log_n : Nat)
    (st : Option (List (Nat × NTTTableRep))) (t : NTTTableRep)
    (st' : Option (List (Nat × NTTTableRep)))
    (h : getNTTTableSlow samples log_n st = some (t, st')) :
    (∃ tables', st' = some tables' ∧ lookupTable tables' log_n = some t) ∧
      ∀ l u, cached st l u → cached st' l u := by
  simp only [getNTTTableSlow] at h
  split at h
  · exact absurd h (by simp)
  · exact absurd h (by simp)
  · next tables' hinit =>
    split at h
    · exact absurd h (by simp)
    · next u hl =>
      injection h with h'
      injection h' with ha hb
      subst ha
      subst hb
      exact ⟨⟨tables', rfl, hl⟩,
        fun l v hv =>
          initNTTTable_preserves samples [log_n] st (some tables') hinit
            l v hv⟩

theorem getNTTTable_spec (samples : Nat → Nat) (log_n : Nat)
    (st : Option (List (Nat × NTTTableRep))) (t : NTTTableRep)
    (st' : Option (List (Nat × NTTTableRep)))
    (h : getNTTTable samples log_n st = some (t, st')) :
    (∃ tables', st' = some tables' ∧ lookupTable tables' log_n = some t) ∧
      ∀ l u, cached st l u → cached st' l u := by
  simp only [getNTTTable] at h
  split at h
  · next tables =>
    split at h
    · next u hl =>
      injection h with h'
      injection h' with ha hb
      subst ha
      subst hb
      refine ⟨⟨tables, rfl, hl⟩, ?_⟩
      rintro l v ⟨tb, hst, hlv⟩
      injection hst with h2
      subst h2
      exact ⟨tables, rfl, hlv⟩
    · exact getNTTTableSlow_spec samples log_n _ t st' h
  · exact getNTTTableSlow_spec samples log_n _ t st' h

theorem getNTTTable_cached_fast (samples : Nat → Nat) (log_n : Nat)
    (tables : List (Nat × NTTTableRep)) (t : NTTTableRep)
    (h : lookupTable tables log_n = some t) :
    getNTTTable samples log_n (some tables) = some (t, some tables) := by
  simp only [getNTTTable, h]

/-- **C5.** After a successful `get_ntt_table(log_n)` producing table `t`
and cache state `st'`: a repeated call with the same `log_n` (under any
sample oracle) returns the very same entry and leaves the state untouched;
`st'` holds `t` at `log_n`; the producing call removed no existing entry;
and no later `init_ntt_table` or `get_ntt_table` call removes or replaces
any entry of `st'`. -/
theorem claim5_cache (samples samples' : Nat → Nat) (log_n : Nat)
    (st st' : Option (List (Nat × NTTTableRep))) (t : NTTTableRep)
    (h : getNTTTable samples log_n st = some (t, st')) :
    getNTTTable samples' log_n st' = some (t, st') ∧
      cached st' log_n t ∧
      (∀ l u, cached st l u → cached st' l u) ∧
      (∀ samples2 log_ns st2, initNTTTable samples2 log_ns st' = some st2 →
        ∀ l u, cached st' l u → cached st2 l u) ∧
      (∀ samples2 log_n2 t2 st2,
        getNTTTable samples2 log_n2 st' = some (t2, st2) →
        ∀ l u, cached st' l u → cached st2 l u) := by
  obtain ⟨⟨tables', hst, hl⟩, hpres⟩ :=
    getNTTTable_spec samples log_n st t st' h
  subst hst
  exact ⟨getNTTTable_cached_fast samples' log_n tables' t hl,
    ⟨tables', rfl, hl⟩, hpres,
    fun samples2 log_ns st2 h2 =>
      initNTTTable_preserves samples2 log_ns _ st2 h2,
    fun samples2 log_n2 t2 st2 h2 =>
      (getNTTTable_spec samples2 log_n2 _ t2 st2 h2).2⟩

/-- Witness for C5: a second `get_ntt_table(3)` on a state already holding
an entry for `3` returns that same entry with the state unchanged. -/
theorem claim5_witness :
    getNTTTable (fun _ => 0) 3
        (some [(3, ⟨0, 0, 0, 0, ⟨0, 0⟩, [], []⟩)])
      = some (⟨0, 0, 0, 0, ⟨0, 0⟩, [], []⟩,
          some [(3, ⟨0, 0, 0, 0, ⟨0, 0⟩, [], []⟩)]) :=
  (claim5_cache (fun _ => 0) (fun _ => 0) 3
    (some [(3, ⟨0, 0, 0, 0, ⟨0, 0⟩, [], []⟩)])
    (some [(3, ⟨0, 0, 0, 0, ⟨0, 0⟩, [], []⟩)])
    ⟨0, 0, 0, 0, ⟨0, 0⟩, [], []⟩ (by decide)).1

end Primus